import Mathlib

/-!
# arbiter::crypto — SHA-1 and HMAC-SHA1 (`arbiter/util/crypto.cpp`)

A shallow embedding of the hash engine (`sha1_transform`, `sha1_init`,
`sha1_update`, `sha1_final`, `sha1`) and of the HMAC composer (`hmacSha1`).

Conventions of the embedding:

* bytes and machine words are natural numbers; wherever the C++ arithmetic
  wraps or a value is narrowed, the reduction `% 2^w` is written out
  (`uint8_t`: `% 256`, `uint32_t`: `% 2^32`, `unsigned long long`: `% 2^64`,
  i.e. `unsigned long long` is taken to be 64 bits wide); a copy between two
  objects of the same width carries no reduction;
* a counted `for` loop is a monadic fold of its body over the list of the
  values its counter takes, a loop over the input bytes a fold over them;
* a raw C array (`uint8_t data[64]`, `uint32_t m[80]`) is a list of cells
  `Option Nat`; a cell is `none` until it is first written;
* every indexed access to an array, a `std::vector` or a `std::string` is
  checked: a load outside the array or of a cell never written, and a store
  outside the array, make the whole computation return `none`.
-/

namespace arbiter
namespace crypto

/-- Checked read `a[i]` of a `std::vector` / `std::string`. -/
def loadAt {α : Type} (a : List α) (i : Nat) : Option α := a[i]?

/-- Checked write `a[i] = v` of a `std::vector` / `std::string`. -/
def storeAt {α : Type} (a : List α) (i : Nat) (v : α) : Option (List α) :=
  if i < a.length then some (a.set i v) else none

/-- A raw C array: one cell per element, `none` while the cell was never written. -/
abbrev Mem := List (Option Nat)

/-- A raw C array of `n` elements none of which has been written. -/
def Mem.fresh (n : Nat) : Mem := List.replicate n none

/-- Checked read of a raw array: fails outside the array and on an unwritten cell. -/
def Mem.load (a : Mem) (i : Nat) : Option Nat := (a[i]?).join

/-- Checked write of a raw array: fails outside the array. -/
def Mem.store (a : Mem) (i : Nat) (v : Nat) : Option Mem := storeAt a i (some v)

/-- Source `std::memset(a, 0, n)` on a raw byte array, failing when `n` exceeds its size. -/
def Mem.memset0 (a : Mem) (n : Nat) : Option Mem :=
  if n ≤ a.length then some (List.replicate n (some 0) ++ a.drop n) else none

/-- Source `while (i < bound) a[i++] = 0x00;`: the loop writes the cells `i, i+1, …, bound-1`
in increasing order (none when `bound ≤ i`). -/
def Mem.zeroFill (a : Mem) (i bound : Nat) : Option Mem :=
  (List.range' i (bound - i)).foldlM (fun a idx => a.store idx 0x00) a

/-- Source: `const std::size_t block(64);` -/
def block : Nat := 64

/-- Source `append(a, b)`: a copy of `a` with `b` inserted at its end. -/
def append (a b : List Nat) : List Nat := a ++ b

/-- Source: `#define ROTLEFT(a, b) ((a << b) | (a >> (32 - b)))` on a `uint32_t` operand. -/
def ROTLEFT (a b : Nat) : Nat := ((a <<< b) % 2 ^ 32) ||| (a >>> (32 - b))

/-- Bitwise complement `~b` of a `uint32_t`. -/
def not32 (b : Nat) : Nat := 2 ^ 32 - 1 - b

/-- Subtraction `i - n` on `uint32_t` operands (wraps below zero). -/
def sub32 (i n : Nat) : Nat := (i + 2 ^ 32 - n) % 2 ^ 32

/-- The five `uint32_t` of `state[5]` resp. the working variables `a, b, c, d, e`. -/
abbrev Words5 := Nat × Nat × Nat × Nat × Nat

/-- The struct `SHA1_CTX`. `state[5]` and `k[4]` are only ever indexed by literals,
so they are kept as tuples. -/
structure SHA1_CTX where
  data : Mem
  datalen : Nat
  bitlen : Nat
  state : Words5
  k : Nat × Nat × Nat × Nat

/-- The body shared by the four round loops of `sha1_transform`:
`t = ROTLEFT(a, 5) + f + e + k + m[i]; e = d; d = c; c = ROTLEFT(b, 30); b = a; a = t;`
where `f` is the mixing value of the loop. -/
def roundBody (f : Nat → Nat → Nat → Nat) (k : Nat) (m : Mem) (v : Words5) (i : Nat) :
    Option Words5 :=
  match v with
  | (a, b, c, d, e) => do
    let mi ← m.load i
    let t := (ROTLEFT a 5 + f b c d + e + k + mi) % 2 ^ 32
    pure (t, a, ROTLEFT b 30, c, d)

/-- Mixing value of rounds 0..19: `((b & c) ^ (~b & d))`. -/
def mix0 (b c d : Nat) : Nat := (b &&& c) ^^^ (not32 b &&& d)

/-- Mixing value of rounds 20..39 and 60..79: `(b ^ c ^ d)`. -/
def mix1 (b c d : Nat) : Nat := b ^^^ c ^^^ d

/-- Mixing value of rounds 40..59: `((b & c) ^ (b & d) ^ (c & d))`. -/
def mix2 (b c d : Nat) : Nat := (b &&& c) ^^^ (b &&& d) ^^^ (c &&& d)

/-- First loop of `sha1_transform`, body at index `i` (with `j = 4 * i`):
`m[i] = (data[j] << 24) + (data[j + 1] << 16) + (data[j + 2] << 8) + (data[j + 3]);` -/
def loadWord (data : Mem) (m : Mem) (i : Nat) : Option Mem := do
  let j := 4 * i
  let d0 ← data.load j
  let d1 ← data.load (j + 1)
  let d2 ← data.load (j + 2)
  let d3 ← data.load (j + 3)
  m.store i (((d0 <<< 24) + (d1 <<< 16) + (d2 <<< 8) + d3) % 2 ^ 32)

/-- Second loop of `sha1_transform`, body at index `i`:
`m[i] = (m[i - 3] ^ m[i - 8] ^ m[i - 14] ^ m[i - 16]); m[i] = (m[i] << 1) | (m[i] >> 31);` -/
def expandWord (m : Mem) (i : Nat) : Option Mem := do
  let x3 ← m.load (sub32 i 3)
  let x8 ← m.load (sub32 i 8)
  let x14 ← m.load (sub32 i 14)
  let x16 ← m.load (sub32 i 16)
  let m ← m.store i (x3 ^^^ x8 ^^^ x14 ^^^ x16)
  let w ← m.load i
  m.store i (((w <<< 1) % 2 ^ 32) ||| (w >>> 31))

/-- Source: `void sha1_transform(SHA1_CTX *ctx, const uint8_t* data)`. -/
def sha1_transform (ctx : SHA1_CTX) (data : Mem) : Option SHA1_CTX := do
  let m : Mem := Mem.fresh 80
  let m ← (List.range' 0 16).foldlM (loadWord data) m
  let m ← (List.range' 16 64).foldlM expandWord m
  let v : Words5 := ctx.state
  let v ← (List.range' 0 20).foldlM (roundBody mix0 ctx.k.1 m) v
  let v ← (List.range' 20 20).foldlM (roundBody mix1 ctx.k.2.1 m) v
  let v ← (List.range' 40 20).foldlM (roundBody mix2 ctx.k.2.2.1 m) v
  let v ← (List.range' 60 20).foldlM (roundBody mix1 ctx.k.2.2.2 m) v
  match ctx.state, v with
  | (s0, s1, s2, s3, s4), (a, b, c, d, e) =>
    pure { ctx with state := ((s0 + a) % 2 ^ 32, (s1 + b) % 2 ^ 32, (s2 + c) % 2 ^ 32,
                              (s3 + d) % 2 ^ 32, (s4 + e) % 2 ^ 32) }

/-- Source: `void sha1_init(SHA1_CTX *ctx)`: every field but `data` is assigned. -/
def sha1_init (ctx : SHA1_CTX) : SHA1_CTX :=
  { ctx with
    datalen := 0
    bitlen := 0
    state := (0x67452301, 0xEFCDAB89, 0x98BADCFE, 0x10325476, 0xc3d2e1f0)
    k := (0x5a827999, 0x6ed9eba1, 0x8f1bbcdc, 0xca62c1d6) }

/-- Body of the loop of `sha1_update` for the input byte `byte = data[i]`. -/
def sha1_update_byte (ctx : SHA1_CTX) (byte : Nat) : Option SHA1_CTX := do
  let data ← ctx.data.store ctx.datalen byte
  let ctx := { ctx with data := data, datalen := (ctx.datalen + 1) % 2 ^ 32 }
  if ctx.datalen = 64 then
    let ctx ← sha1_transform ctx ctx.data
    pure { ctx with bitlen := (ctx.bitlen + 512) % 2 ^ 64, datalen := 0 }
  else
    pure ctx

/-- Source: `void sha1_update(SHA1_CTX *ctx, const uint8_t* data, size_t len)`, with `data`
the `len` input bytes. -/
def sha1_update (ctx : SHA1_CTX) (data : List Nat) : Option SHA1_CTX :=
  data.foldlM sha1_update_byte ctx

/-- Body of the output loop of `sha1_final` at index `i`. -/
def sha1_final_emit (ctx : SHA1_CTX) (hash : List Nat) (i : Nat) : Option (List Nat) :=
  match ctx.state with
  | (s0, s1, s2, s3, s4) => do
    let hash ← storeAt hash i ((s0 >>> (24 - i * 8)) &&& 0x000000ff)
    let hash ← storeAt hash (i + 4) ((s1 >>> (24 - i * 8)) &&& 0x000000ff)
    let hash ← storeAt hash (i + 8) ((s2 >>> (24 - i * 8)) &&& 0x000000ff)
    let hash ← storeAt hash (i + 12) ((s3 >>> (24 - i * 8)) &&& 0x000000ff)
    storeAt hash (i + 16) ((s4 >>> (24 - i * 8)) &&& 0x000000ff)

/-- Source: `void sha1_final(SHA1_CTX *ctx, uint8_t* hash)`; returns the final context and
the filled output buffer. -/
def sha1_final (ctx : SHA1_CTX) (hash : List Nat) : Option (SHA1_CTX × List Nat) := do
  let i := ctx.datalen
  let ctx ←
    if ctx.datalen < 56 then do
      let data ← ctx.data.store i 0x80
      let data ← data.zeroFill ((i + 1) % 2 ^ 32) 56
      pure { ctx with data := data }
    else do
      let data ← ctx.data.store i 0x80
      let data ← data.zeroFill ((i + 1) % 2 ^ 32) 64
      let ctx ← sha1_transform { ctx with data := data } data
      let data ← ctx.data.memset0 56
      pure { ctx with data := data }
  let ctx := { ctx with bitlen := (ctx.bitlen + (ctx.datalen * 8) % 2 ^ 32) % 2 ^ 64 }
  let data ← ctx.data.store 63 (ctx.bitlen % 256)
  let data ← data.store 62 ((ctx.bitlen >>> 8) % 256)
  let data ← data.store 61 ((ctx.bitlen >>> 16) % 256)
  let data ← data.store 60 ((ctx.bitlen >>> 24) % 256)
  let data ← data.store 59 ((ctx.bitlen >>> 32) % 256)
  let data ← data.store 58 ((ctx.bitlen >>> 40) % 256)
  let data ← data.store 57 ((ctx.bitlen >>> 48) % 256)
  let data ← data.store 56 ((ctx.bitlen >>> 56) % 256)
  let ctx ← sha1_transform { ctx with data := data } data
  let hash ← (List.range' 0 4).foldlM (sha1_final_emit ctx) hash
  pure (ctx, hash)

/-- The local `SHA1_CTX ctx;` of `sha1` before `sha1_init`: no cell of `data` has
been written; the other fields are all assigned by `sha1_init` before any use. -/
def SHA1_CTX.uninit : SHA1_CTX :=
  { data := Mem.fresh 64, datalen := 0, bitlen := 0, state := (0, 0, 0, 0, 0), k := (0, 0, 0, 0) }

/-- Source: `std::vector<char> sha1(const std::vector<char>& data)` and its `std::string`
overload (the same bytes in another container). -/
def sha1 (data : List Nat) : Option (List Nat) := do
  let ctx := SHA1_CTX.uninit
  let out : List Nat := List.replicate 20 0
  let ctx := sha1_init ctx
  let ctx ← sha1_update ctx data
  let (_, out) ← sha1_final ctx out
  pure out

/-- Lines 211–212 of `hmacSha1`, the key the pads are built from:
`if (key.size() > block) key = sha1(key);`
`if (key.size() < block) key.insert(key.end(), block - key.size(), 0);` -/
def hmacSha1_key (key : List Nat) : Option (List Nat) := do
  let key ← if key.length > block then sha1 key else pure key
  let key := if key.length < block then key ++ List.replicate (block - key.length) 0 else key
  pure key

/-- Body of the pad loop of `hmacSha1` at index `i`:
`okeypad[i] ^= key[i]; ikeypad[i] ^= key[i];` -/
def hmacSha1_pad (key : List Nat) (pads : List Nat × List Nat) (i : Nat) :
    Option (List Nat × List Nat) :=
  match pads with
  | (okeypad, ikeypad) => do
    let o ← loadAt okeypad i
    let ko ← loadAt key i
    let okeypad ← storeAt okeypad i (o ^^^ ko)
    let ik ← loadAt ikeypad i
    let ki ← loadAt key i
    let ikeypad ← storeAt ikeypad i (ik ^^^ ki)
    pure (okeypad, ikeypad)

/-- Source: `std::vector<char> hmacSha1(std::string key, const std::string message)`. -/
def hmacSha1 (key message : List Nat) : Option (List Nat) := do
  let key ← hmacSha1_key key
  let okeypad : List Nat := List.replicate block 0x5c
  let ikeypad : List Nat := List.replicate block 0x36
  let (okeypad, ikeypad) ← (List.range' 0 block).foldlM (hmacSha1_pad key) (okeypad, ikeypad)
  let inner ← sha1 (append ikeypad message)
  sha1 (append okeypad inner)

/-- The compression transform as a function of the accumulator words and of a
64-byte block: `sha1_transform` run on a context whose `state` holds `st` and whose
`k` holds the round constants assigned by `sha1_init`, reading the bytes of `blk`. -/
def compress (st : Words5) (blk : List Nat) : Option Words5 :=
  (sha1_transform { sha1_init SHA1_CTX.uninit with state := st } (blk.map some)).map (·.state)

/-- The first `n` consecutive 64-byte blocks of `l`. -/
def blocksN : Nat → List Nat → List (List Nat)
  | 0, _ => []
  | n + 1, l => l.take 64 :: blocksN n (l.drop 64)

/-- The consecutive 64-byte blocks of `l` (a trailing partial block is left out). -/
def blocks64 (l : List Nat) : List (List Nat) := blocksN (l.length / 64) l

/-- Folding the compression transform over the consecutive 64-byte blocks of `l`,
starting from the accumulator words `st`. -/
def foldBlocks (st : Words5) (l : List Nat) : Option Words5 :=
  (blocks64 l).foldlM compress st

/-- The `n`-byte big-endian (most-significant-byte-first) encoding of `v`. -/
def beBytes : Nat → Nat → List Nat
  | 0, _ => []
  | n + 1, v => beBytes n (v / 256) ++ [v % 256]

/-- The five accumulator words as 20 bytes, each word most-significant byte first. -/
def serialise (st : Words5) : List Nat :=
  match st with
  | (s0, s1, s2, s3, s4) =>
    beBytes 4 s0 ++ beBytes 4 s1 ++ beBytes 4 s2 ++ beBytes 4 s3 ++ beBytes 4 s4

/-! ## The hash engine with a log of the blocks passed to the transform

The same functions once more, each threading a log to which every call of
`sha1_transform` appends the 64-cell block it is passed; nothing else differs. -/

/-- Instrumented call `sha1_transform(ctx, data)`: the call itself, and `data` appended
to the log. -/
def sha1_transform_log (ctx : SHA1_CTX) (log : List Mem) (data : Mem) :
    Option (SHA1_CTX × List Mem) := do
  let ctx ← sha1_transform ctx data
  pure (ctx, log ++ [data])

/-- Instrumented body of the loop of `sha1_update` for the input byte `byte = data[i]`. -/
def sha1_update_byte_log (cl : SHA1_CTX × List Mem) (byte : Nat) :
    Option (SHA1_CTX × List Mem) :=
  match cl with
  | (ctx, log) => do
    let data ← ctx.data.store ctx.datalen byte
    let ctx := { ctx with data := data, datalen := (ctx.datalen + 1) % 2 ^ 32 }
    if ctx.datalen = 64 then
      let (ctx, log) ← sha1_transform_log ctx log ctx.data
      pure ({ ctx with bitlen := (ctx.bitlen + 512) % 2 ^ 64, datalen := 0 }, log)
    else
      pure (ctx, log)

/-- Instrumented `sha1_update`. -/
def sha1_update_log (ctx : SHA1_CTX) (log : List Mem) (data : List Nat) :
    Option (SHA1_CTX × List Mem) :=
  data.foldlM sha1_update_byte_log (ctx, log)

/-- Instrumented `sha1_final`; returns the final context, the log and the filled
output buffer. -/
def sha1_final_log (ctx : SHA1_CTX) (log : List Mem) (hash : List Nat) :
    Option (SHA1_CTX × List Mem × List Nat) := do
  let i := ctx.datalen
  let (ctx, log) ←
    if ctx.datalen < 56 then do
      let data ← ctx.data.store i 0x80
      let data ← data.zeroFill ((i + 1) % 2 ^ 32) 56
      pure ({ ctx with data := data }, log)
    else do
      let data ← ctx.data.store i 0x80
      let data ← data.zeroFill ((i + 1) % 2 ^ 32) 64
      let (ctx, log) ← sha1_transform_log { ctx with data := data } log data
      let data ← ctx.data.memset0 56
      pure ({ ctx with data := data }, log)
  let ctx := { ctx with bitlen := (ctx.bitlen + (ctx.datalen * 8) % 2 ^ 32) % 2 ^ 64 }
  let data ← ctx.data.store 63 (ctx.bitlen % 256)
  let data ← data.store 62 ((ctx.bitlen >>> 8) % 256)
  let data ← data.store 61 ((ctx.bitlen >>> 16) % 256)
  let data ← data.store 60 ((ctx.bitlen >>> 24) % 256)
  let data ← data.store 59 ((ctx.bitlen >>> 32) % 256)
  let data ← data.store 58 ((ctx.bitlen >>> 40) % 256)
  let data ← data.store 57 ((ctx.bitlen >>> 48) % 256)
  let data ← data.store 56 ((ctx.bitlen >>> 56) % 256)
  let (ctx, log) ← sha1_transform_log { ctx with data := data } log data
  let hash ← (List.range' 0 4).foldlM (sha1_final_emit ctx) hash
  pure (ctx, log, hash)

/-- Instrumented `sha1`: the digest together with the blocks that were passed to
`sha1_transform`, in the order of the calls. -/
def sha1_log (data : List Nat) : Option (List Nat × List Mem) := do
  let ctx := SHA1_CTX.uninit
  let out : List Nat := List.replicate 20 0
  let ctx := sha1_init ctx
  let (ctx, log) ← sha1_update_log ctx [] data
  let (_, log, out) ← sha1_final_log ctx log out
  pure (out, log)

/-! ## The two halves of `sha1_transform` -/

/-- The schedule `m[80]` as the first two loops of `sha1_transform` build it from the
block `data`. -/
def sha1_schedule (data : Mem) : Option Mem := do
  let m : Mem := Mem.fresh 80
  let m ← (List.range' 0 16).foldlM (loadWord data) m
  (List.range' 16 64).foldlM expandWord m

/-- The remainder of `sha1_transform`: the 80 rounds on the schedule `m` and the update
of `state`. -/
def sha1_rounds (ctx : SHA1_CTX) (m : Mem) : Option SHA1_CTX := do
  let v : Words5 := ctx.state
  let v ← (List.range' 0 20).foldlM (roundBody mix0 ctx.k.1 m) v
  let v ← (List.range' 20 20).foldlM (roundBody mix1 ctx.k.2.1 m) v
  let v ← (List.range' 40 20).foldlM (roundBody mix2 ctx.k.2.2.1 m) v
  let v ← (List.range' 60 20).foldlM (roundBody mix1 ctx.k.2.2.2 m) v
  match ctx.state, v with
  | (s0, s1, s2, s3, s4), (a, b, c, d, e) =>
    pure { ctx with state := ((s0 + a) % 2 ^ 32, (s1 + b) % 2 ^ 32, (s2 + c) % 2 ^ 32,
                              (s3 + d) % 2 ^ 32, (s4 + e) % 2 ^ 32) }

/-- The word the first loop of `sha1_transform` stores in `m[i]`, read off a block given
as a list of bytes:
`(data[j] << 24) + (data[j + 1] << 16) + (data[j + 2] << 8) + (data[j + 3])`, `j = 4 * i`. -/
def codeWord (blk : List Nat) (i : Nat) : Nat :=
  ((blk.getD (4 * i) 0 <<< 24) + (blk.getD (4 * i + 1) 0 <<< 16) + (blk.getD (4 * i + 2) 0 <<< 8)
    + blk.getD (4 * i + 3) 0) % 2 ^ 32

/-! ## Definitions following the words of the specification -/

/-- Mixing function of rounds 0–19 as specified: `(b AND c) OR (NOT b AND d)`. -/
def specMix0 (b c d : Nat) : Nat := (b &&& c) ||| (not32 b &&& d)

/-- Mixing function of rounds 40–59 as specified: `(b AND c) OR (b AND d) OR (c AND d)`. -/
def specMix2 (b c d : Nat) : Nat := (b &&& c) ||| (b &&& d) ||| (c &&& d)

/-- The message followed by its padding with `k` zero bytes: `msg ++ [0x80] ++ k` zero
bytes `++` the 8-byte big-endian encoding of `8 * n mod 2^64`. -/
def padded (k : Nat) (msg : List Nat) : List Nat :=
  msg ++ [0x80] ++ List.replicate k 0 ++ beBytes 8 (8 * msg.length % 2 ^ 64)

/-- The big-endian 32-bit word made of the bytes `4i .. 4i+3` of `blk`. -/
def specWord (blk : List Nat) (i : Nat) : Nat :=
  blk.getD (4 * i) 0 * 2 ^ 24 + blk.getD (4 * i + 1) 0 * 2 ^ 16 + blk.getD (4 * i + 2) 0 * 2 ^ 8
    + blk.getD (4 * i + 3) 0

/-- Left rotation by one bit of a 32-bit word `w`: the low 31 bits move up by one place
and the top bit becomes the lowest bit. -/
def specRotl1 (w : Nat) : Nat := (2 * w) % 2 ^ 32 + w / 2 ^ 31

/-- The bytes of `l` behind its last full 64-byte block. -/
def tailBytes (l : List Nat) : List Nat := l.drop (64 * (l.length / 64))

/-- The consecutive 64-byte blocks of `l` as fully written 64-cell buffers. -/
def blocksLog (l : List Nat) : List Mem := (blocks64 l).map (List.map some)

/-! ## Predicates used in the proofs -/

/-- Cells `0 .. n-1` of the 80-word schedule array `m` have been written. -/
def schedInit (n : Nat) (m : Mem) : Prop :=
  m.length = 80 ∧ ∀ j, j < n → (m.load j).isSome = true

/-- Buffer invariant of a digest state between two absorbed bytes: `p` are the
pending bytes, held in the first `datalen` cells of the 64-cell buffer, and `k`
holds the round constants. -/
def Pending (ctx : SHA1_CTX) (p : List Nat) : Prop :=
  p.length < 64 ∧ ctx.datalen = p.length ∧ ctx.k = (sha1_init SHA1_CTX.uninit).k ∧
    ctx.data.length = 64 ∧ ctx.data.take p.length = p.map some

/-- Number of zero bytes between the `0x80` byte and the length field that
`sha1_final` produces for a message of `n` bytes. -/
def padZeros (n : Nat) : Nat := if n % 64 < 56 then 55 - n % 64 else 119 - n % 64

/-- One pad vector of `hmacSha1` (initial byte `c`) after `i` iterations of the pad loop
over the key `K`. -/
def padAfter (c : Nat) (K : List Nat) (i : Nat) : List Nat :=
  (K.take i).map (fun b => c ^^^ b) ++ List.replicate (64 - i) c

/-- Buffer invariant of a digest state without the condition on the round constants:
`p` are the pending bytes, held in the first `datalen` cells of the 64-cell buffer. -/
def Buffered (ctx : SHA1_CTX) (p : List Nat) : Prop :=
  p.length < 64 ∧ ctx.datalen = p.length ∧ ctx.data.length = 64 ∧
    ctx.data.take p.length = p.map some

/-- Invariant of the two schedule loops of `sha1_transform` on the block `blk` when the
cells `0 .. n-1` of `m` are written: they hold 32-bit values, the first sixteen the words
of the block and each later one the rotated XOR of the four cells it is computed from. -/
def SchedOK (blk : List Nat) (n : Nat) (m : Mem) : Prop :=
  m.length = 80 ∧
  (∀ i, i < n → ∃ v, m.load i = some v ∧ v < 2 ^ 32) ∧
  (∀ i, i < n → i < 16 → m.load i = some (codeWord blk i)) ∧
  (∀ i, 16 ≤ i → i < n → ∃ x3 x8 x14 x16, m.load (i - 3) = some x3 ∧ m.load (i - 8) = some x8 ∧
    m.load (i - 14) = some x14 ∧ m.load (i - 16) = some x16 ∧
    m.load i = some (ROTLEFT (x3 ^^^ x8 ^^^ x14 ^^^ x16) 1))

/-! ## Lemmas -/

/-- Invariant rule for a counted loop `for (i = s; i < s + n; ++i)` whose body may fail:
if the body succeeds and re-establishes `P (i + 1)` from `P i`, the loop succeeds and
ends in a state satisfying `P (s + n)`. -/
theorem foldlM_range'_inv {β : Type} (f : β → Nat → Option β) (P : Nat → β → Prop) :
    ∀ (n s : Nat) (b : β), P s b →
      (∀ i c, s ≤ i → i < s + n → P i c → ∃ c', f c i = some c' ∧ P (i + 1) c') →
      ∃ b', (List.range' s n).foldlM f b = some b' ∧ P (s + n) b' := by
  intro n
  induction n with
  | zero => intro s b h0 _; exact ⟨b, by simp [List.range'], h0⟩
  | succ n ih =>
    intro s b h0 hstep
    obtain ⟨c, hc, hP⟩ := hstep s b (le_refl s) (by omega) h0
    obtain ⟨b', hb', hP'⟩ := ih (s + 1) c hP (fun i d h1 h2 hd => hstep i d (by omega) (by omega) hd)
    refine ⟨b', ?_, ?_⟩
    · simp [List.range', List.foldlM, hc, hb']
    · have : s + (n + 1) = s + 1 + n := by omega
      rw [this]; exact hP'

/-- A store inside the array succeeds and updates the cell. -/
theorem Mem.store_eq (a : Mem) (i v : Nat) (h : i < a.length) :
    a.store i v = some (a.set i (some v)) := by
  simp [Mem.store, storeAt, h]

/-- Reading back after a store. -/
theorem Mem.load_set (a : Mem) (i j v : Nat) (h : i < a.length) :
    Mem.load (a.set i (some v)) j = if i = j then some v else a.load j := by
  unfold Mem.load
  rw [List.getElem?_set]
  split
  · simp [h]
  · rfl

/-- Every cell of a fully written array can be read. -/
theorem Mem.load_map_some (blk : List Nat) (i : Nat) (h : i < blk.length) :
    Mem.load (blk.map some) i = some (blk.get ⟨i, h⟩) := by
  simp [Mem.load, h]

/-- Writing `m[i]` extends the written part of the schedule by one cell. -/
theorem schedInit_set (m : Mem) (i v : Nat) (hi : i < 80) (hm : schedInit i m) :
    schedInit (i + 1) (m.set i (some v)) := by
  obtain ⟨hlen, hinit⟩ := hm
  refine ⟨by simp [hlen], ?_⟩
  intro j hj
  rw [Mem.load_set _ _ _ _ (by omega)]
  by_cases hij : i = j
  · simp [hij]
  · simp only [hij, if_false]; exact hinit j (by omega)

/-- The first loop body of `sha1_transform` succeeds on a 64-byte block. -/
theorem loadWord_some (blk : List Nat) (hb : blk.length = 64) (m : Mem) (i : Nat)
    (hi : i < 16) (hm : schedInit i m) :
    ∃ m', loadWord (blk.map some) m i = some m' ∧ schedInit (i + 1) m' := by
  have h0 : 4 * i < blk.length := by omega
  have h1 : 4 * i + 1 < blk.length := by omega
  have h2 : 4 * i + 2 < blk.length := by omega
  have h3 : 4 * i + 3 < blk.length := by omega
  have hi80 : i < m.length := by have := hm.1; omega
  simp only [loadWord, Mem.load_map_some _ _ h0, Mem.load_map_some _ _ h1,
    Mem.load_map_some _ _ h2, Mem.load_map_some _ _ h3, Mem.store_eq _ _ _ hi80,
    Option.bind_eq_bind, Option.some_bind]
  exact ⟨_, rfl, schedInit_set m i _ (by omega) hm⟩

/-- No wrap-around of `i - n` when `n ≤ i`. -/
theorem sub32_eq (i n : Nat) (h : n ≤ i) (hi : i < 2 ^ 32) : sub32 i n = i - n := by
  unfold sub32
  omega

/-- The second loop body of `sha1_transform` succeeds for `16 ≤ i < 80` once the
cells below `i` are written. -/
theorem expandWord_some (m : Mem) (i : Nat) (h16 : 16 ≤ i) (hi : i < 80) (hm : schedInit i m) :
    ∃ m', expandWord m i = some m' ∧ schedInit (i + 1) m' := by
  obtain ⟨x3, hx3⟩ := Option.isSome_iff_exists.mp (hm.2 (i - 3) (by omega))
  obtain ⟨x8, hx8⟩ := Option.isSome_iff_exists.mp (hm.2 (i - 8) (by omega))
  obtain ⟨x14, hx14⟩ := Option.isSome_iff_exists.mp (hm.2 (i - 14) (by omega))
  obtain ⟨x16, hx16⟩ := Option.isSome_iff_exists.mp (hm.2 (i - 16) (by omega))
  have hi80 : i < m.length := by have := hm.1; omega
  have hi80' : ∀ v, i < (m.set i (some v)).length := by intro v; simpa using hi80
  simp only [expandWord, sub32_eq i 3 (by omega) (by omega), sub32_eq i 8 (by omega) (by omega),
    sub32_eq i 14 (by omega) (by omega), sub32_eq i 16 (by omega) (by omega),
    hx3, hx8, hx14, hx16, Mem.store_eq _ _ _ hi80, Mem.store_eq _ _ _ (hi80' _), Mem.load_set _ _ _ _ hi80,
    Option.bind_eq_bind, Option.some_bind, if_true, List.set_set]
  exact ⟨_, rfl, schedInit_set m i _ hi hm⟩

/-- A round succeeds once the whole schedule is written. -/
theorem roundBody_some (f : Nat → Nat → Nat → Nat) (k : Nat) (m : Mem) (v : Words5) (i : Nat)
    (hi : i < 80) (hm : schedInit 80 m) : ∃ v', roundBody f k m v i = some v' := by
  obtain ⟨mi, hmi⟩ := Option.isSome_iff_exists.mp (hm.2 i hi)
  obtain ⟨a, b, c, d, e⟩ := v
  simp [roundBody, hmi]

/-- The transform reads only `state` and `k` of the context and writes only `state`. -/
theorem sha1_transform_frame (ctx ctx' : SHA1_CTX) (data : Mem)
    (hs : ctx.state = ctx'.state) (hk : ctx.k = ctx'.k) :
    sha1_transform ctx data
      = (sha1_transform ctx' data).map (fun c => { ctx with state := c.state }) := by
  obtain ⟨d, dl, bl, st, k⟩ := ctx
  obtain ⟨d', dl', bl', st', k'⟩ := ctx'
  simp only at hs hk
  subst hs hk
  obtain ⟨s0, s1, s2, s3, s4⟩ := st
  simp only [sha1_transform, Option.bind_eq_bind, Option.pure_def]
  cases (List.range' 0 16).foldlM (loadWord data) (Mem.fresh 80) with
  | none => rfl
  | some m1 =>
    simp only [Option.some_bind]
    cases (List.range' 16 64).foldlM expandWord m1 with
    | none => rfl
    | some m =>
      simp only [Option.some_bind]
      cases (List.range' 0 20).foldlM (roundBody mix0 k.1 m) (s0, s1, s2, s3, s4) with
      | none => rfl
      | some v1 =>
        simp only [Option.some_bind]
        cases (List.range' 20 20).foldlM (roundBody mix1 k.2.1 m) v1 with
        | none => rfl
        | some v2 =>
          simp only [Option.some_bind]
          cases (List.range' 40 20).foldlM (roundBody mix2 k.2.2.1 m) v2 with
          | none => rfl
          | some v3 =>
            simp only [Option.some_bind]
            cases (List.range' 60 20).foldlM (roundBody mix1 k.2.2.2 m) v3 with
            | none => rfl
            | some v4 =>
              obtain ⟨a, b, c, d, e⟩ := v4
              rfl

/-- The transform succeeds on every fully written 64-byte block and changes `state` only. -/
theorem sha1_transform_some (ctx : SHA1_CTX) (blk : List Nat) (hb : blk.length = 64) :
    ∃ st, sha1_transform ctx (blk.map some) = some { ctx with state := st } := by
  obtain ⟨m1, h1, hm1⟩ := foldlM_range'_inv (loadWord (blk.map some)) schedInit 16 0 (Mem.fresh 80)
    ⟨by simp [Mem.fresh], fun j hj => absurd hj (by omega)⟩
    (fun i c _ hi hc => loadWord_some blk hb c i (by omega) hc)
  obtain ⟨m, h2, hm⟩ := foldlM_range'_inv expandWord schedInit 64 16 m1 hm1
    (fun i c h16 hi hc => expandWord_some c i h16 (by omega) hc)
  have hm80 : schedInit 80 m := hm
  have rounds : ∀ (f : Nat → Nat → Nat → Nat) (k s : Nat) (v : Words5), s + 20 ≤ 80 →
      ∃ v', (List.range' s 20).foldlM (roundBody f k m) v = some v' := by
    intro f k s v hs
    obtain ⟨v', hv', _⟩ := foldlM_range'_inv (roundBody f k m) (fun _ _ => True) 20 s v trivial
      (fun i c _ hi _ => by
        obtain ⟨c', hc'⟩ := roundBody_some f k m c i (by omega) hm80
        exact ⟨c', hc', trivial⟩)
    exact ⟨v', hv'⟩
  obtain ⟨v1, hv1⟩ := rounds mix0 ctx.k.1 0 ctx.state (by omega)
  obtain ⟨v2, hv2⟩ := rounds mix1 ctx.k.2.1 20 v1 (by omega)
  obtain ⟨v3, hv3⟩ := rounds mix2 ctx.k.2.2.1 40 v2 (by omega)
  obtain ⟨v4, hv4⟩ := rounds mix1 ctx.k.2.2.2 60 v3 (by omega)
  obtain ⟨a, b, c, d, e⟩ := v4
  obtain ⟨dd, dl, bl, ⟨s0, s1, s2, s3, s4⟩, k⟩ := ctx
  simp only [sha1_transform, h1, h2, Option.bind_eq_bind, Option.some_bind, Option.pure_def]
  simp only at hv1 hv2 hv3 hv4
  simp only [hv1, hv2, hv3, hv4, Option.some_bind]
  exact ⟨_, rfl⟩

/-- The compression transform is defined on every 64-byte block. -/
theorem compress_some (st : Words5) (blk : List Nat) (hb : blk.length = 64) :
    ∃ st', compress st blk = some st' := by
  obtain ⟨st', h⟩ := sha1_transform_some { sha1_init SHA1_CTX.uninit with state := st } blk hb
  exact ⟨st', by simp [compress, h]⟩

/-- On a context holding the round constants, `sha1_transform` replaces `state` by
`compress state blk`. -/
theorem sha1_transform_eq_compress (ctx : SHA1_CTX) (blk : List Nat)
    (hk : ctx.k = (sha1_init SHA1_CTX.uninit).k) :
    sha1_transform ctx (blk.map some)
      = (compress ctx.state blk).map (fun s => { ctx with state := s }) := by
  rw [compress, sha1_transform_frame ctx { sha1_init SHA1_CTX.uninit with state := ctx.state }
    (blk.map some) rfl hk, Option.map_map]
  rfl

/-- Fewer than 64 bytes hold no block. -/
theorem blocks64_short (l : List Nat) (h : l.length < 64) : blocks64 l = [] := by
  simp [blocks64, Nat.div_eq_of_lt h, blocksN]

/-- The first block of `b ++ rest` is `b` when `b` has 64 bytes. -/
theorem blocks64_append (b rest : List Nat) (hb : b.length = 64) :
    blocks64 (b ++ rest) = b :: blocks64 rest := by
  have h1 : (b ++ rest).length / 64 = rest.length / 64 + 1 := by
    rw [List.length_append, hb]; omega
  have h2 : (b ++ rest).take 64 = b := by rw [← hb]; simp
  have h3 : (b ++ rest).drop 64 = rest := by rw [← hb]; simp
  rw [blocks64, h1, blocksN, h2, h3, blocks64]

/-- Folding over fewer than 64 bytes leaves the accumulator words unchanged. -/
theorem foldBlocks_short (st : Words5) (l : List Nat) (h : l.length < 64) :
    foldBlocks st l = some st := by
  simp [foldBlocks, blocks64_short l h]

/-- Folding over `b ++ rest` compresses the block `b` first. -/
theorem foldBlocks_append (st : Words5) (b rest : List Nat) (hb : b.length = 64) :
    foldBlocks st (b ++ rest) = (compress st b).bind (fun s => foldBlocks s rest) := by
  simp [foldBlocks, blocks64_append b rest hb]

/-- The buffer of a digest state splits into the pending bytes and the cells behind them. -/
theorem pending_junk {ctx : SHA1_CTX} {p : List Nat} (h : Pending ctx p) :
    p.length < 64 ∧ ctx.datalen = p.length ∧ ctx.k = (sha1_init SHA1_CTX.uninit).k ∧
      ∃ junk : Mem, ctx.data = p.map some ++ junk ∧ junk.length = 64 - p.length := by
  obtain ⟨hlen, hdl, hk, h64, htake⟩ := h
  refine ⟨hlen, hdl, hk, ctx.data.drop p.length, ?_, by simp [h64]⟩
  rw [← htake, List.take_append_drop]

/-- Introduction rule for `Pending`. -/
theorem pending_mk {ctx : SHA1_CTX} {p : List Nat} (junk : Mem) (hlen : p.length < 64)
    (hdl : ctx.datalen = p.length) (hk : ctx.k = (sha1_init SHA1_CTX.uninit).k)
    (hdata : ctx.data = p.map some ++ junk) (hjunk : junk.length = 64 - p.length) :
    Pending ctx p := by
  refine ⟨hlen, hdl, hk, ?_, ?_⟩
  · rw [hdata, List.length_append, List.length_map, hjunk]; omega
  · rw [hdata, List.take_left' (by simp)]

/-- Writing the cell right behind the written bytes `p` appends the byte to them. -/
theorem store_at_len (p : List Nat) (junk : Mem) (v : Nat) (hj : 0 < junk.length) :
    Mem.store (p.map some ++ junk) p.length v = some ((p ++ [v]).map some ++ junk.tail) := by
  cases junk with
  | nil => simp at hj
  | cons j js =>
    rw [Mem.store_eq _ _ _ (by simp)]
    simp

/-- One iteration of the loop of `sha1_update`: the invariant is kept, the number of
pending bytes and the bit count advance by one byte, and the accumulator words follow
the fold over the blocks completed so far. -/
theorem sha1_update_byte_spec (ctx : SHA1_CTX) (p : List Nat) (x : Nat) (h : Pending ctx p) :
    ∃ ctx1 p1, sha1_update_byte ctx x = some ctx1 ∧ Pending ctx1 p1 ∧
      p1.length % 64 = (p.length + 1) % 64 ∧
      (ctx1.bitlen + 8 * p1.length) % 2 ^ 64 = (ctx.bitlen + 8 * (p.length + 1)) % 2 ^ 64 ∧
      ∀ rest, foldBlocks ctx.state (p ++ x :: rest) = foldBlocks ctx1.state (p1 ++ rest) := by
  obtain ⟨hlen, hdl, hk, junk, hdata, hjunk⟩ := pending_junk h
  have hst := store_at_len p junk x (by omega)
  by_cases h63 : p.length + 1 = 64
  · -- the buffer fills up: transform
    have hjt : junk.tail = [] := by
      apply List.eq_nil_of_length_eq_zero; simp; omega
    obtain ⟨st1, hst1⟩ := compress_some ctx.state (p ++ [x]) (by simp; omega)
    refine ⟨{ ctx with data := (p ++ [x]).map some, datalen := 0, state := st1,
                       bitlen := (ctx.bitlen + 512) % 2 ^ 64 }, [], ?_, ?_, ?_, ?_, ?_⟩
    · have htr := sha1_transform_eq_compress
        { ctx with data := (p ++ [x]).map some, datalen := 64 } (p ++ [x]) hk
      simp only [hst1, Option.map_some'] at htr
      have h64 : (p.length + 1) % 2 ^ 32 = 64 := by omega
      simp only [sha1_update_byte, hdata, hdl, hst, hjt, List.append_nil, h64,
        Option.bind_eq_bind, Option.some_bind, if_true, htr, Option.pure_def]
    · exact pending_mk ((p ++ [x]).map some) (by simp) rfl hk (by simp) (by simp; omega)
    · simp; omega
    · simp only [List.length_nil]; omega
    · intro rest
      have : p ++ x :: rest = (p ++ [x]) ++ rest := by simp
      rw [this, foldBlocks_append _ _ _ (by simp; omega), hst1]
      simp
  · refine ⟨{ ctx with data := (p ++ [x]).map some ++ junk.tail, datalen := p.length + 1 },
      p ++ [x], ?_, ?_, ?_, ?_, ?_⟩
    · have h64 : (p.length + 1) % 2 ^ 32 = p.length + 1 := by omega
      simp only [sha1_update_byte, hdata, hdl, hst, h64,
        Option.bind_eq_bind, Option.some_bind, h63, if_false, Option.pure_def]
    · exact pending_mk junk.tail (by simp; omega) (by simp) hk rfl (by simp; omega)
    · simp
    · simp
    · intro rest; simp

/-- The loop of `sha1_update` on the input `xs`. -/
theorem sha1_update_spec (xs : List Nat) : ∀ (ctx : SHA1_CTX) (p : List Nat), Pending ctx p →
    ∃ ctx1 p1, sha1_update ctx xs = some ctx1 ∧ Pending ctx1 p1 ∧
      p1.length % 64 = (p.length + xs.length) % 64 ∧
      (ctx1.bitlen + 8 * p1.length) % 2 ^ 64 = (ctx.bitlen + 8 * (p.length + xs.length)) % 2 ^ 64 ∧
      ∀ rest, foldBlocks ctx.state (p ++ (xs ++ rest)) = foldBlocks ctx1.state (p1 ++ rest) := by
  induction xs with
  | nil =>
    intro ctx p h
    exact ⟨ctx, p, by simp [sha1_update], h, by simp, by simp, fun rest => by simp⟩
  | cons x xs ih =>
    intro ctx p h
    obtain ⟨c1, p1, hc1, hP1, hl1, hb1, hf1⟩ := sha1_update_byte_spec ctx p x h
    obtain ⟨c2, p2, hc2, hP2, hl2, hb2, hf2⟩ := ih c1 p1 hP1
    refine ⟨c2, p2, ?_, hP2, ?_, ?_, ?_⟩
    · simp only [sha1_update, List.foldlM, hc1, Option.bind_eq_bind, Option.some_bind] at hc2 ⊢
      exact hc2
    · simp only [List.length_cons]; omega
    · simp only [List.length_cons]; omega
    · intro rest
      rw [List.cons_append, hf1, hf2]

/-- The zero-filling loop, started right behind the written bytes `p`, appends `n` zero
bytes to them. -/
theorem zeroFill_loop (n : Nat) : ∀ (p : List Nat) (junk : Mem), n ≤ junk.length →
    (List.range' p.length n).foldlM (fun (a : Mem) idx => a.store idx 0x00) (p.map some ++ junk)
      = some ((p ++ List.replicate n 0).map some ++ junk.drop n) := by
  induction n with
  | zero => intro p junk _; simp [List.range']
  | succ n ih =>
    intro p junk hn
    have h1 := store_at_len p junk 0 (by omega)
    have h2 := ih (p ++ [0]) junk.tail (by simp; omega)
    simp only [List.length_append, List.length_singleton] at h2
    simp only [List.range', List.foldlM, h1, Option.bind_eq_bind, Option.some_bind, h2]
    simp [List.replicate_succ]

/-- The loop `while (i < bound) a[i++] = 0x00;` started right behind the written bytes. -/
theorem zeroFill_at_len (p : List Nat) (junk : Mem) (bound : Nat)
    (h : bound - p.length ≤ junk.length) :
    Mem.zeroFill (p.map some ++ junk) p.length bound
      = some ((p ++ List.replicate (bound - p.length) 0).map some ++ junk.drop (bound - p.length)) :=
  zeroFill_loop (bound - p.length) p junk h

/-- A store keeps the size of the array. -/
theorem store_length (a b : Mem) (i v : Nat) (h : Mem.store a i v = some b) : b.length = a.length := by
  unfold Mem.store storeAt at h
  split at h
  · cases h; simp
  · cases h

/-- The eight stores into `data[63]`, …, `data[56]` of `sha1_final`. -/
theorem store_tail8 {β : Type} (p : List Nat) (junk : Mem) (hp : p.length = 56)
    (hj : junk.length = 8) (b0 b1 b2 b3 b4 b5 b6 b7 : Nat) (k : Mem → Option β) :
    ((Mem.store (p.map some ++ junk) 63 b7).bind fun a =>
      (a.store 62 b6).bind fun a =>
      (a.store 61 b5).bind fun a =>
      (a.store 60 b4).bind fun a =>
      (a.store 59 b3).bind fun a =>
      (a.store 58 b2).bind fun a =>
      (a.store 57 b1).bind fun a =>
      (a.store 56 b0).bind k) = k ((p ++ [b0, b1, b2, b3, b4, b5, b6, b7]).map some) := by
  obtain ⟨j0, j1, j2, j3, j4, j5, j6, j7, rfl⟩ :
      ∃ j0 j1 j2 j3 j4 j5 j6 j7, junk = [j0, j1, j2, j3, j4, j5, j6, j7] := by
    match junk, hj with
    | [j0, j1, j2, j3, j4, j5, j6, j7], _ => exact ⟨_, _, _, _, _, _, _, _, rfl⟩
  simp [Mem.store, storeAt, hp, List.set_append]

/-- Masking with `0xff` is reduction modulo 256. -/
theorem and_255 (x : Nat) : x &&& 255 = x % 256 := Nat.and_pow_two_sub_one_eq_mod x 8

/-- Shifting right by 8 bits is division by 256. -/
theorem shr_8 (x : Nat) : x >>> 8 = x / 256 := by
  rw [Nat.shiftRight_eq_div_pow]

/-- Shifting right by 8 more bits. -/
theorem shr_add_8 (x n : Nat) : x >>> (n + 8) = (x >>> n) / 256 := by
  rw [Nat.shiftRight_add, shr_8]

/-- Shifting right by 16 bits. -/
theorem shr_16 (x : Nat) : x >>> 16 = x / 256 / 256 := by
  rw [shr_add_8 x 8, shr_8]

/-- Shifting right by 24 bits. -/
theorem shr_24 (x : Nat) : x >>> 24 = x / 256 / 256 / 256 := by
  rw [shr_add_8 x 16, shr_16]

/-- Shifting right by 32 bits. -/
theorem shr_32 (x : Nat) : x >>> 32 = x / 256 / 256 / 256 / 256 := by
  rw [shr_add_8 x 24, shr_24]

/-- Shifting right by 40 bits. -/
theorem shr_40 (x : Nat) : x >>> 40 = x / 256 / 256 / 256 / 256 / 256 := by
  rw [shr_add_8 x 32, shr_32]

/-- Shifting right by 48 bits. -/
theorem shr_48 (x : Nat) : x >>> 48 = x / 256 / 256 / 256 / 256 / 256 / 256 := by
  rw [shr_add_8 x 40, shr_40]

/-- Shifting right by 56 bits. -/
theorem shr_56 (x : Nat) : x >>> 56 = x / 256 / 256 / 256 / 256 / 256 / 256 / 256 := by
  rw [shr_add_8 x 48, shr_48]

/-- The output loop of `sha1_final` writes the serialised accumulator words. -/
theorem emit_spec (ctx : SHA1_CTX) :
    (List.range' 0 4).foldlM (sha1_final_emit ctx) (List.replicate 20 0)
      = some (serialise ctx.state) := by
  obtain ⟨dd, dl, bl, ⟨s0, s1, s2, s3, s4⟩, k⟩ := ctx
  simp [List.range', List.foldlM, sha1_final_emit, storeAt, serialise, beBytes, List.replicate,
    and_255, shr_8, shr_16, shr_24]

/-- The eight bytes `sha1_final` stores for the bit count are its big-endian encoding. -/
theorem beBytes_8 (v : Nat) :
    beBytes 8 v = [(v >>> 56) % 256, (v >>> 48) % 256, (v >>> 40) % 256, (v >>> 32) % 256,
      (v >>> 24) % 256, (v >>> 16) % 256, (v >>> 8) % 256, v % 256] := by
  simp [beBytes, shr_8, shr_16, shr_24, shr_32, shr_40, shr_48, shr_56]

/-- The lemma `sha1_transform_eq_compress` with the fields of the context spelled out. -/
theorem sha1_transform_mk (d : Mem) (dl bl : Nat) (st : Words5) (k : Nat × Nat × Nat × Nat)
    (blk : List Nat) (hk : k = (sha1_init SHA1_CTX.uninit).k) :
    sha1_transform ⟨d, dl, bl, st, k⟩ (blk.map some)
      = (compress st blk).map (fun s => ⟨d, dl, bl, s, k⟩) :=
  sha1_transform_eq_compress ⟨d, dl, bl, st, k⟩ blk hk

/-- Finalisation: `sha1_final` emits the serialised result of folding the compression
transform over the pending bytes followed by the padding. -/
theorem sha1_final_spec (ctx : SHA1_CTX) (p : List Nat) (h : Pending ctx p) :
    ∃ ctx1 st1, sha1_final ctx (List.replicate 20 0) = some (ctx1, serialise st1) ∧
      foldBlocks ctx.state (p ++ ([0x80] ++ List.replicate
        (if p.length < 56 then 55 - p.length else 119 - p.length) 0 ++
          beBytes 8 ((ctx.bitlen + 8 * p.length) % 2 ^ 64))) = some st1 := by
  obtain ⟨hlen, hdl, hk, junk, hdata, hjunk⟩ := pending_junk h
  have hst := store_at_len p junk 0x80 (by omega)
  have hi1 : (p.length + 1) % 2 ^ 32 = (p ++ [0x80]).length := by simp; omega
  have hbl : (ctx.bitlen + p.length * 8 % 2 ^ 32) % 2 ^ 64
      = (ctx.bitlen + 8 * p.length) % 2 ^ 64 := by omega
  by_cases h56 : p.length < 56
  · have hzf := zeroFill_at_len (p ++ [0x80]) junk.tail 56 (by simp; omega)
    have hp56 : (p ++ [0x80] ++ List.replicate (56 - (p ++ [0x80]).length) 0).length = 56 := by
      simp; omega
    have hj8 : (junk.tail.drop (56 - (p ++ [0x80]).length)).length = 8 := by simp; omega
    have hblk : p ++ [0x80] ++ List.replicate (56 - (p ++ [0x80]).length) 0 ++
        beBytes 8 ((ctx.bitlen + 8 * p.length) % 2 ^ 64)
        = p ++ ([0x80] ++ List.replicate (55 - p.length) 0 ++
          beBytes 8 ((ctx.bitlen + 8 * p.length) % 2 ^ 64)) := by
      have : 56 - (p ++ [0x80]).length = 55 - p.length := by simp
      rw [this]; simp only [List.append_assoc]
    obtain ⟨st1, hst1⟩ := compress_some ctx.state
      (p ++ ([0x80] ++ List.replicate (55 - p.length) 0 ++
          beBytes 8 ((ctx.bitlen + 8 * p.length) % 2 ^ 64))) (by simp [beBytes]; omega)
    simp only [sha1_final, hdl, h56, if_true, hdata, hst, Option.bind_eq_bind, Option.some_bind,
      hi1, hzf, Option.pure_def, hbl]
    rw [store_tail8 _ _ hp56 hj8, ← beBytes_8, hblk,
      sha1_transform_mk _ _ _ _ _ _ hk]
    simp only [hst1, Option.map_some', Option.some_bind, emit_spec]
    refine ⟨_, st1, rfl, ?_⟩
    have := foldBlocks_append ctx.state (p ++ ([0x80] ++ List.replicate (55 - p.length) 0 ++
          beBytes 8 ((ctx.bitlen + 8 * p.length) % 2 ^ 64))) [] (by simp [beBytes]; omega)
    rw [List.append_nil] at this
    rw [this, hst1]
    simp [foldBlocks_short]
  · have hzf := zeroFill_at_len (p ++ [0x80]) junk.tail 64 (by simp; omega)
    have hdrop : junk.tail.drop (64 - (p ++ [0x80]).length) = [] := by
      apply List.eq_nil_of_length_eq_zero; simp; omega
    have hn : 64 - (p ++ [0x80]).length = 63 - p.length := by simp
    rw [hdrop, List.append_nil, hn] at hzf
    have hb1 : (p ++ [0x80] ++ List.replicate (63 - p.length) 0).length = 64 := by
      simp; omega
    obtain ⟨st1, hst1⟩ := compress_some ctx.state _ hb1
    have hb2 : (List.replicate 56 0 ++ beBytes 8 ((ctx.bitlen + 8 * p.length) % 2 ^ 64)).length
        = 64 := by simp [beBytes]
    obtain ⟨st2, hst2⟩ := compress_some st1 _ hb2
    have hms : Mem.memset0 ((p ++ [0x80] ++ List.replicate (63 - p.length) 0).map some) 56
        = some ((List.replicate 56 0).map some
            ++ ((p ++ [0x80] ++ List.replicate (63 - p.length) 0).map some).drop 56) := by
      simp [Mem.memset0]; omega
    have hj8 : (((p ++ [0x80] ++ List.replicate (63 - p.length) 0).map some).drop 56).length
        = 8 := by simp; omega
    simp only [sha1_final, hdl, h56, if_false, hdata, hst, Option.bind_eq_bind, Option.some_bind,
      hi1, hzf, Option.pure_def, hbl]
    rw [sha1_transform_mk _ _ _ _ _ _ hk]
    simp only [hst1, Option.map_some', Option.some_bind, hms, hbl]
    rw [store_tail8 _ _ (by simp) hj8, ← beBytes_8, sha1_transform_mk _ _ _ _ _ _ hk]
    simp only [hst2, Option.map_some', Option.some_bind, emit_spec]
    refine ⟨_, st2, rfl, ?_⟩
    have hsplit : p ++ ([0x80] ++ List.replicate (119 - p.length) 0 ++
          beBytes 8 ((ctx.bitlen + 8 * p.length) % 2 ^ 64))
        = (p ++ [0x80] ++ List.replicate (63 - p.length) 0) ++
          ((List.replicate 56 0 ++ beBytes 8 ((ctx.bitlen + 8 * p.length) % 2 ^ 64)) ++ []) := by
      have : 119 - p.length = (63 - p.length) + 56 := by omega
      rw [this, List.replicate_add]
      simp only [List.append_assoc, List.append_nil]
    rw [hsplit, foldBlocks_append _ _ _ hb1, hst1, Option.some_bind,
      foldBlocks_append _ _ _ hb2, hst2]
    simp [foldBlocks_short]

/-- After `sha1_init` no byte is pending, whatever the 64 cells of the buffer hold. -/
theorem pending_init (ctx0 : SHA1_CTX) (h : ctx0.data.length = 64) :
    Pending (sha1_init ctx0) [] :=
  pending_mk ctx0.data (by simp) rfl rfl (by simp [sha1_init]) (by simpa using h)

/-- The zero count `padZeros n` is the least one that makes the padded length a multiple of 64. -/
theorem padZeros_spec (n : Nat) :
    (n + 1 + padZeros n + 8) % 64 = 0 ∧ ∀ j, j < padZeros n → (n + 1 + j + 8) % 64 ≠ 0 := by
  unfold padZeros
  split <;> constructor <;> (try intro j hj) <;> omega

/-- The encoding `beBytes n v` has `n` bytes. -/
theorem beBytes_length (n v : Nat) : (beBytes n v).length = n := by
  induction n generalizing v with
  | zero => rfl
  | succ n ih => simp [beBytes, ih]

/-- The serialised accumulator words are 20 bytes. -/
theorem serialise_length (st : Words5) : (serialise st).length = 20 := by
  obtain ⟨s0, s1, s2, s3, s4⟩ := st
  simp [serialise, beBytes_length]

/-- The sequence `sha1_init; sha1_update; sha1_final`, run on a context whose buffer
has 64 cells of whatever contents, emits the serialised fold over the padded message. -/
theorem sha1_run_spec (ctx0 : SHA1_CTX) (h : ctx0.data.length = 64) (msg : List Nat) :
    ∃ st, foldBlocks (sha1_init ctx0).state (msg ++ ([0x80] ++ List.replicate (padZeros msg.length) 0
        ++ beBytes 8 ((8 * msg.length) % 2 ^ 64))) = some st ∧
      ((sha1_update (sha1_init ctx0) msg).bind fun ctx =>
        (sha1_final ctx (List.replicate 20 0)).map (·.2)) = some (serialise st) := by
  obtain ⟨c1, p1, hc1, hP1, hl1, hb1, hf1⟩ := sha1_update_spec msg (sha1_init ctx0) [] (pending_init ctx0 h)
  obtain ⟨c2, st, hc2, hst⟩ := sha1_final_spec c1 p1 hP1
  have hp1 : p1.length = msg.length % 64 := by
    have := hP1.1
    simp only [List.length_nil, Nat.zero_add] at hl1
    omega
  have hbits : (c1.bitlen + 8 * p1.length) % 2 ^ 64 = (8 * msg.length) % 2 ^ 64 := by
    rw [hb1]; simp [sha1_init]
  refine ⟨st, ?_, ?_⟩
  · have := hf1 ([0x80] ++ List.replicate (padZeros msg.length) 0
        ++ beBytes 8 ((8 * msg.length) % 2 ^ 64))
    rw [List.nil_append] at this
    rw [this, ← hst, hbits, padZeros, hp1]
  · rw [hc1, Option.some_bind, hc2]; rfl

/-- The function `sha1` is that sequence run on its local context. -/
theorem sha1_eq (msg : List Nat) :
    sha1 msg = (sha1_update (sha1_init SHA1_CTX.uninit) msg).bind fun ctx =>
        (sha1_final ctx (List.replicate 20 0)).map (·.2) := by
  unfold sha1
  simp only [Option.bind_eq_bind, Option.pure_def]
  cases sha1_update (sha1_init SHA1_CTX.uninit) msg with
  | none => rfl
  | some c =>
    simp only [Option.some_bind]
    cases sha1_final c (List.replicate 20 0) with
    | none => rfl
    | some r => rfl

/-- The digest of `msg` is the serialised fold over the padded message. -/
theorem sha1_spec (msg : List Nat) :
    ∃ st, foldBlocks (0x67452301, 0xEFCDAB89, 0x98BADCFE, 0x10325476, 0xC3D2E1F0)
        (msg ++ ([0x80] ++ List.replicate (padZeros msg.length) 0
          ++ beBytes 8 ((8 * msg.length) % 2 ^ 64))) = some st ∧
      sha1 msg = some (serialise st) := by
  obtain ⟨st, h1, h2⟩ := sha1_run_spec SHA1_CTX.uninit (by simp [SHA1_CTX.uninit, Mem.fresh]) msg
  exact ⟨st, h1, by rw [sha1_eq, h2]⟩

/-- The function `sha1` returns 20 bytes on every input. -/
theorem sha1_some (msg : List Nat) : ∃ d, sha1 msg = some d ∧ d.length = 20 := by
  obtain ⟨st, _, h⟩ := sha1_spec msg
  exact ⟨_, h, serialise_length st⟩

/-- Reading the element right behind the prefix `pre`. -/
theorem loadAt_at_len {α : Type} (pre : List α) (x : α) (rest : List α) (i : Nat)
    (hi : i = pre.length) : loadAt (pre ++ x :: rest) i = some x := by
  subst hi
  induction pre with
  | nil => simp [loadAt]
  | cons a pre ih => simpa [loadAt] using ih

/-- Writing the element right behind the prefix `pre`. -/
theorem storeAt_at_len {α : Type} (pre : List α) (x v : α) (rest : List α) (i : Nat)
    (hi : i = pre.length) : storeAt (pre ++ x :: rest) i v = some (pre ++ v :: rest) := by
  subst hi; simp [storeAt]

/-- One iteration of the pad loop on one of the two pad vectors. -/
theorem padAfter_step (c : Nat) (K : List Nat) (i : Nat) (hK : K.length = 64) (hi : i < 64) :
    ∃ ki, loadAt K i = some ki ∧ loadAt (padAfter c K i) i = some c ∧
      storeAt (padAfter c K i) i (c ^^^ ki) = some (padAfter c K (i + 1)) := by
  have hlen : i = ((K.take i).map (fun b => c ^^^ b)).length := by simp; omega
  have hrep : List.replicate (64 - i) c = c :: List.replicate (64 - (i + 1)) c := by
    have : 64 - i = (64 - (i + 1)) + 1 := by omega
    rw [this, List.replicate_succ]
  have hik : i < K.length := by omega
  refine ⟨K[i], by simp [loadAt, hik], ?_, ?_⟩
  · rw [padAfter, hrep]; exact loadAt_at_len _ _ _ _ hlen
  · have htk : K.take (i + 1) = K.take i ++ [K[i]] := by
      rw [List.take_succ, List.getElem?_eq_getElem hik]; rfl
    rw [padAfter, hrep, storeAt_at_len _ _ _ _ _ hlen, padAfter, htk]
    simp only [List.map_append, List.map_cons, List.map_nil, List.append_assoc,
      List.singleton_append]

/-- The pad loop of `hmacSha1` on a 64-byte key. -/
theorem pad_loop (K : List Nat) (hK : K.length = 64) :
    (List.range' 0 block).foldlM (hmacSha1_pad K) (List.replicate block 0x5c, List.replicate block 0x36)
      = some (K.map (fun b => 0x5c ^^^ b), K.map (fun b => 0x36 ^^^ b)) := by
  obtain ⟨r, hr, hP⟩ := foldlM_range'_inv (hmacSha1_pad K)
    (fun i pads => pads = (padAfter 0x5c K i, padAfter 0x36 K i)) 64 0
    (List.replicate block 0x5c, List.replicate block 0x36)
    (by simp [padAfter, block])
    (fun i c _ hi hc => by
      subst hc
      obtain ⟨ki, hki, hlo, hso⟩ := padAfter_step 0x5c K i hK (by omega)
      obtain ⟨ki', hki', hli, hsi⟩ := padAfter_step 0x36 K i hK (by omega)
      rw [hki] at hki'; cases hki'
      refine ⟨_, ?_, rfl⟩
      simp only [hmacSha1_pad, hlo, hki, hso, hli, hsi, Option.bind_eq_bind, Option.some_bind,
        Option.pure_def])
  simp only [block] at hr ⊢
  rw [hr, hP]
  simp [padAfter, ← hK]

/-- The three cases of the key normalisation of `hmacSha1`. -/
theorem hmacSha1_key_spec (key : List Nat) :
    ∃ K, hmacSha1_key key = some K ∧ K.length = 64 ∧
      (64 < key.length → ∃ d, sha1 key = some d ∧ d.length = 20 ∧ K = d ++ List.replicate 44 0) ∧
      (key.length < 64 → K = key ++ List.replicate (64 - key.length) 0) ∧
      (key.length = 64 → K = key) := by
  by_cases hgt : 64 < key.length
  · obtain ⟨d, hd, hdl⟩ := sha1_some key
    refine ⟨d ++ List.replicate 44 0, ?_, by simp [hdl], fun _ => ⟨d, hd, hdl, rfl⟩,
      fun h => by omega, fun h => by omega⟩
    simp [hmacSha1_key, block, hgt, hd, hdl]
  · by_cases hlt : key.length < 64
    · refine ⟨key ++ List.replicate (64 - key.length) 0, ?_, by simp; omega, fun h => by omega,
        fun _ => rfl, fun h => by omega⟩
      simp [hmacSha1_key, block, hgt, hlt]
    · refine ⟨key, ?_, by omega, fun h => by omega, fun h => by omega, fun _ => rfl⟩
      simp [hmacSha1_key, block, hgt, hlt]

/-- A 64-byte key is used as it is. -/
theorem hmacSha1_key_idem (K : List Nat) (hK : K.length = 64) : hmacSha1_key K = some K := by
  simp [hmacSha1_key, block, hK]

/-- The tag in terms of the normalised key. -/
theorem hmacSha1_of_key (key K message : List Nat) (h : hmacSha1_key key = some K) (hK : K.length = 64) :
    hmacSha1 key message = (sha1 (K.map (fun b => 0x36 ^^^ b) ++ message)).bind
      (fun inner => sha1 (K.map (fun b => 0x5c ^^^ b) ++ inner)) := by
  simp only [hmacSha1, h, Option.bind_eq_bind, Option.some_bind, pad_loop K hK, append]

/-! ## Lemmas for the claims C11 – C20 -/

/-- The bits of `~b` for a 32-bit `b`: the complements of the bits of `b` below bit 32. -/
theorem testBit_not32 (b i : Nat) (hb : b < 2 ^ 32) :
    (not32 b).testBit i = (decide (i < 32) && !b.testBit i) := by
  have h : not32 b = 2 ^ 32 - (b + 1) := by unfold not32; omega
  rw [h, Nat.testBit_two_pow_sub_succ hb]

/-- Zero bytes appended to a key, up to 64 bytes in all, do not change the normalised key. -/
theorem hmacSha1_key_zero_ext (key : List Nat) (j : Nat) (h : key.length + j ≤ 64) :
    hmacSha1_key (key ++ List.replicate j 0) = hmacSha1_key key := by
  obtain ⟨K1, hK1, _, _, hs1, he1⟩ := hmacSha1_key_spec (key ++ List.replicate j 0)
  obtain ⟨K2, hK2, _, _, hs2, he2⟩ := hmacSha1_key_spec key
  rw [hK1, hK2]
  have hlen : (key ++ List.replicate j 0).length = key.length + j := by simp
  by_cases hj : key.length + j = 64
  · rw [he1 (by omega)]
    by_cases hk : key.length = 64
    · have : j = 0 := by omega
      subst this
      rw [he2 hk]; simp
    · rw [hs2 (by omega)]
      have : 64 - key.length = j := by omega
      rw [this]
  · rw [hs1 (by omega), hs2 (by omega), hlen, List.append_assoc, List.append_replicate_replicate]
    have : j + (64 - (key.length + j)) = 64 - key.length := by omega
    rw [this]

/-- The function `hmacSha1` returns 20 bytes on every key and message. -/
theorem hmacSha1_some (key message : List Nat) :
    ∃ tag, hmacSha1 key message = some tag ∧ tag.length = 20 := by
  obtain ⟨K, hK, hlen, _⟩ := hmacSha1_key_spec key
  obtain ⟨inner, hinner, _⟩ := sha1_some (K.map (fun b => 0x36 ^^^ b) ++ message)
  obtain ⟨tag, htag, htag20⟩ := sha1_some (K.map (fun b => 0x5c ^^^ b) ++ inner)
  exact ⟨tag, by rw [hmacSha1_of_key key K message hK hlen, hinner, Option.some_bind, htag],
    htag20⟩

/-- Two keys with the same normalised key give the same tag. -/
theorem hmacSha1_congr_key (k1 k2 message : List Nat) (h : hmacSha1_key k1 = hmacSha1_key k2) :
    hmacSha1 k1 message = hmacSha1 k2 message := by
  obtain ⟨K, hK, hlen, _⟩ := hmacSha1_key_spec k1
  rw [hmacSha1_of_key k1 K message hK hlen, hmacSha1_of_key k2 K message (h ▸ hK) hlen]

/-- Dropping the log from the instrumented loop body gives the loop body of `sha1_update`. -/
theorem erase_update_byte (ctx : SHA1_CTX) (log : List Mem) (x : Nat) :
    (sha1_update_byte_log (ctx, log) x).map Prod.fst = sha1_update_byte ctx x := by
  simp only [sha1_update_byte_log, sha1_update_byte, sha1_transform_log, Option.bind_eq_bind,
    Option.pure_def]
  cases ctx.data.store ctx.datalen x with
  | none => rfl
  | some d =>
    simp only [Option.some_bind]
    split
    · cases sha1_transform _ d with
      | none => rfl
      | some c => rfl
    · rfl

/-- Dropping the log from the instrumented `sha1_update` gives `sha1_update`. -/
theorem erase_update (xs : List Nat) : ∀ (ctx : SHA1_CTX) (log : List Mem),
    (sha1_update_log ctx log xs).map Prod.fst = sha1_update ctx xs := by
  induction xs with
  | nil => intro ctx log; rfl
  | cons x xs ih =>
    intro ctx log
    have h1 := erase_update_byte ctx log x
    simp only [sha1_update_log, sha1_update, List.foldlM, Option.bind_eq_bind] at ih ⊢
    cases hs : sha1_update_byte_log (ctx, log) x with
    | none =>
      rw [hs] at h1
      rw [← h1]; rfl
    | some r =>
      obtain ⟨c, l⟩ := r
      rw [hs] at h1
      rw [← h1]
      exact ih c l

/-- Dropping the log from the instrumented `sha1_final` gives `sha1_final`. -/
theorem erase_final (ctx : SHA1_CTX) (log : List Mem) (hash : List Nat) :
    (sha1_final_log ctx log hash).map (fun r => (r.1, r.2.2)) = sha1_final ctx hash := by
  simp only [sha1_final_log, sha1_final, sha1_transform_log, Option.bind_eq_bind, Option.pure_def]
  by_cases h : ctx.datalen < 56
  · simp only [h, if_true, Option.bind_assoc, Option.some_bind, Option.map_bind, Option.map_some',
      Function.comp_def]
  · simp only [h, if_false, Option.bind_assoc, Option.some_bind, Option.map_bind, Option.map_some',
      Function.comp_def]

/-- Dropping the log from the instrumented `sha1` gives `sha1`. -/
theorem erase_sha1 (msg : List Nat) : (sha1_log msg).map Prod.fst = sha1 msg := by
  rw [sha1_eq, ← erase_update msg (sha1_init SHA1_CTX.uninit) []]
  simp only [sha1_log, Option.bind_eq_bind, Option.pure_def]
  cases sha1_update_log (sha1_init SHA1_CTX.uninit) [] msg with
  | none => rfl
  | some r =>
    obtain ⟨c, l⟩ := r
    simp only [Option.some_bind, Option.map_some', ← erase_final c l]
    cases sha1_final_log c l (List.replicate 20 0) with
    | none => rfl
    | some r => rfl

/-- The invariant `Pending` contains `Buffered`. -/
theorem buffered_of_pending {ctx : SHA1_CTX} {p : List Nat} (h : Pending ctx p) :
    Buffered ctx p := ⟨h.1, h.2.1, h.2.2.2.1, h.2.2.2.2⟩

/-- The buffer of a digest state splits into the pending bytes and the cells behind them. -/
theorem buffered_junk {ctx : SHA1_CTX} {p : List Nat} (h : Buffered ctx p) :
    p.length < 64 ∧ ctx.datalen = p.length ∧
      ∃ junk : Mem, ctx.data = p.map some ++ junk ∧ junk.length = 64 - p.length := by
  obtain ⟨hlen, hdl, h64, htake⟩ := h
  refine ⟨hlen, hdl, ctx.data.drop p.length, ?_, by simp [h64]⟩
  rw [← htake, List.take_append_drop]

/-- Introduction rule for `Buffered`. -/
theorem buffered_mk {ctx : SHA1_CTX} {p : List Nat} (junk : Mem) (hlen : p.length < 64)
    (hdl : ctx.datalen = p.length) (hdata : ctx.data = p.map some ++ junk)
    (hjunk : junk.length = 64 - p.length) : Buffered ctx p := by
  refine ⟨hlen, hdl, ?_, ?_⟩
  · rw [hdata, List.length_append, List.length_map, hjunk]; omega
  · rw [hdata, List.take_left' (by simp)]

/-- Fewer than 64 bytes are all behind the last full block. -/
theorem tailBytes_short (l : List Nat) (h : l.length < 64) : tailBytes l = l := by
  simp [tailBytes, Nat.div_eq_of_lt h]

/-- A leading 64-byte block does not change the bytes behind the last full block. -/
theorem tailBytes_append (b rest : List Nat) (hb : b.length = 64) :
    tailBytes (b ++ rest) = tailBytes rest := by
  have h1 : (b ++ rest).length / 64 = rest.length / 64 + 1 := by
    rw [List.length_append, hb]; omega
  have h2 : 64 * (rest.length / 64 + 1) = b.length + 64 * (rest.length / 64) := by omega
  rw [tailBytes, h1, h2, List.drop_append, tailBytes]

/-- Fewer than 64 bytes hold no block to log. -/
theorem blocksLog_short (l : List Nat) (h : l.length < 64) : blocksLog l = [] := by
  simp [blocksLog, blocks64_short l h]

/-- The first logged block of `b ++ rest` is `b` when `b` has 64 bytes. -/
theorem blocksLog_append (b rest : List Nat) (hb : b.length = 64) :
    blocksLog (b ++ rest) = b.map some :: blocksLog rest := by
  simp [blocksLog, blocks64_append b rest hb]

/-- A byte sequence of length `n` has `n / 64` full blocks. -/
theorem blocks64_length (l : List Nat) : (blocks64 l).length = l.length / 64 := by
  have : ∀ n (l : List Nat), (blocksN n l).length = n := by
    intro n
    induction n with
    | zero => intro l; rfl
    | succ n ih => intro l; simp [blocksN, ih]
  exact this _ l

/-- One iteration of the instrumented loop of `sha1_update`: the invariant is kept, `k` is
untouched, and log, pending bytes and bit count follow the blocks completed so far. -/
theorem sha1_update_byte_log_spec (ctx : SHA1_CTX) (log : List Mem) (p : List Nat) (x : Nat)
    (h : Buffered ctx p) :
    ∃ ctx1 log1 p1, sha1_update_byte_log (ctx, log) x = some (ctx1, log1) ∧ Buffered ctx1 p1 ∧
      ctx1.k = ctx.k ∧ (ctx.bitlen < 2 ^ 64 → ctx1.bitlen < 2 ^ 64) ∧
      (∀ r, (ctx1.bitlen + 512 * ((p1.length + r) / 64)) % 2 ^ 64
        = (ctx.bitlen + 512 * ((p.length + 1 + r) / 64)) % 2 ^ 64) ∧
      (∀ rest, log1 ++ blocksLog (p1 ++ rest) = log ++ blocksLog (p ++ x :: rest)) ∧
      (∀ rest, tailBytes (p1 ++ rest) = tailBytes (p ++ x :: rest)) := by
  obtain ⟨hlen, hdl, junk, hdata, hjunk⟩ := buffered_junk h
  have hst := store_at_len p junk x (by omega)
  by_cases h63 : p.length + 1 = 64
  · have hjt : junk.tail = [] := by
      apply List.eq_nil_of_length_eq_zero; simp; omega
    have hb : (p ++ [x]).length = 64 := by simp; omega
    obtain ⟨st1, hst1⟩ := sha1_transform_some
      { ctx with data := (p ++ [x]).map some, datalen := 64 } (p ++ [x]) hb
    have hsplit : ∀ rest, p ++ x :: rest = (p ++ [x]) ++ rest := by intro rest; simp
    refine ⟨{ ctx with data := (p ++ [x]).map some, datalen := 0, state := st1,
                       bitlen := (ctx.bitlen + 512) % 2 ^ 64 }, log ++ [(p ++ [x]).map some], [],
      ?_, ?_, rfl, ?_, ?_, ?_, ?_⟩
    · have h64 : (p.length + 1) % 2 ^ 32 = 64 := by omega
      simp only [sha1_update_byte_log, sha1_transform_log, hdata, hdl, hst, hjt, List.append_nil,
        h64, Option.bind_eq_bind, Option.some_bind, if_true, hst1, Option.pure_def]
    · exact buffered_mk ((p ++ [x]).map some) (by simp) rfl (by simp) (by simp; omega)
    · intro _; exact Nat.mod_lt _ (by norm_num)
    · intro r; simp only [List.length_nil]; omega
    · intro rest
      rw [hsplit rest, blocksLog_append _ _ hb]; simp
    · intro rest
      rw [hsplit rest, tailBytes_append _ _ hb]; simp
  · refine ⟨{ ctx with data := (p ++ [x]).map some ++ junk.tail, datalen := p.length + 1 }, log,
      p ++ [x], ?_, ?_, rfl, fun hb => hb, ?_, ?_, ?_⟩
    · have h64 : (p.length + 1) % 2 ^ 32 = p.length + 1 := by omega
      simp only [sha1_update_byte_log, hdata, hdl, hst, h64,
        Option.bind_eq_bind, Option.some_bind, h63, if_false, Option.pure_def]
    · exact buffered_mk junk.tail (by simp; omega) (by simp) rfl (by simp; omega)
    · intro r; simp
    · intro rest; simp
    · intro rest; simp

/-- The instrumented loop of `sha1_update` on the input `xs`. -/
theorem sha1_update_log_spec (xs : List Nat) : ∀ (ctx : SHA1_CTX) (log : List Mem) (p : List Nat),
    Buffered ctx p →
    ∃ ctx1 log1 p1, sha1_update_log ctx log xs = some (ctx1, log1) ∧ Buffered ctx1 p1 ∧
      ctx1.k = ctx.k ∧ (ctx.bitlen < 2 ^ 64 → ctx1.bitlen < 2 ^ 64) ∧
      (∀ r, (ctx1.bitlen + 512 * ((p1.length + r) / 64)) % 2 ^ 64
        = (ctx.bitlen + 512 * ((p.length + xs.length + r) / 64)) % 2 ^ 64) ∧
      (∀ rest, log1 ++ blocksLog (p1 ++ rest) = log ++ blocksLog (p ++ (xs ++ rest))) ∧
      (∀ rest, tailBytes (p1 ++ rest) = tailBytes (p ++ (xs ++ rest))) := by
  induction xs with
  | nil =>
    intro ctx log p h
    exact ⟨ctx, log, p, rfl, h, rfl, fun hb => hb, fun r => by simp, fun rest => by simp,
      fun rest => by simp⟩
  | cons x xs ih =>
    intro ctx log p h
    obtain ⟨c1, l1, p1, hc1, hB1, hk1, hlt1, hb1, hl1, ht1⟩ :=
      sha1_update_byte_log_spec ctx log p x h
    obtain ⟨c2, l2, p2, hc2, hB2, hk2, hlt2, hb2, hl2, ht2⟩ := ih c1 l1 p1 hB1
    refine ⟨c2, l2, p2, ?_, hB2, hk2.trans hk1, fun hb => hlt2 (hlt1 hb), ?_, ?_, ?_⟩
    · simp only [sha1_update_log, List.foldlM, hc1, Option.bind_eq_bind, Option.some_bind] at hc2 ⊢
      exact hc2
    · intro r
      rw [hb2 r]
      have := hb1 (xs.length + r)
      simp only [List.length_cons]
      have e1 : p1.length + xs.length + r = p1.length + (xs.length + r) := by omega
      have e2 : p.length + (xs.length + 1) + r = p.length + 1 + (xs.length + r) := by omega
      rw [e1, e2]; exact this
    · intro rest
      rw [hl2, hl1, List.cons_append]
    · intro rest
      rw [ht2, ht1, List.cons_append]

/-- The transform succeeds on every fully written 64-byte block, whatever the other fields
of the context are, and changes `state` only. -/
theorem sha1_transform_mk_some (st : Words5) (k : Nat × Nat × Nat × Nat) (blk : List Nat)
    (hb : blk.length = 64) :
    ∃ st', ∀ (d : Mem) (dl bl : Nat),
      sha1_transform ⟨d, dl, bl, st, k⟩ (blk.map some) = some ⟨d, dl, bl, st', k⟩ := by
  obtain ⟨st', h⟩ := sha1_transform_some ⟨[], 0, 0, st, k⟩ blk hb
  refine ⟨st', fun d dl bl => ?_⟩
  rw [sha1_transform_frame ⟨d, dl, bl, st, k⟩ ⟨[], 0, 0, st, k⟩ (blk.map some) rfl rfl, h]
  rfl

/-- The instrumented `sha1_final` passes to the transform the blocks of the pending bytes
followed by the padding. -/
theorem sha1_final_log_spec (ctx : SHA1_CTX) (log : List Mem) (p : List Nat)
    (h : Buffered ctx p) :
    ∃ ctx1 out, sha1_final_log ctx log (List.replicate 20 0)
      = some (ctx1, log ++ blocksLog (p ++ ([0x80] ++ List.replicate
        (if p.length < 56 then 55 - p.length else 119 - p.length) 0 ++
          beBytes 8 ((ctx.bitlen + 8 * p.length) % 2 ^ 64))), out) := by
  obtain ⟨hlen, hdl, junk, hdata, hjunk⟩ := buffered_junk h
  have hst := store_at_len p junk 0x80 (by omega)
  have hi1 : (p.length + 1) % 2 ^ 32 = (p ++ [0x80]).length := by simp; omega
  have hbl : (ctx.bitlen + p.length * 8 % 2 ^ 32) % 2 ^ 64
      = (ctx.bitlen + 8 * p.length) % 2 ^ 64 := by omega
  by_cases h56 : p.length < 56
  · have hzf := zeroFill_at_len (p ++ [0x80]) junk.tail 56 (by simp; omega)
    have hp56 : (p ++ [0x80] ++ List.replicate (56 - (p ++ [0x80]).length) 0).length = 56 := by
      simp; omega
    have hj8 : (junk.tail.drop (56 - (p ++ [0x80]).length)).length = 8 := by simp; omega
    have hblk : p ++ [0x80] ++ List.replicate (56 - (p ++ [0x80]).length) 0 ++
        beBytes 8 ((ctx.bitlen + 8 * p.length) % 2 ^ 64)
        = p ++ ([0x80] ++ List.replicate (55 - p.length) 0 ++
          beBytes 8 ((ctx.bitlen + 8 * p.length) % 2 ^ 64)) := by
      have : 56 - (p ++ [0x80]).length = 55 - p.length := by simp
      rw [this]; simp only [List.append_assoc]
    have hb : (p ++ ([0x80] ++ List.replicate (55 - p.length) 0 ++
          beBytes 8 ((ctx.bitlen + 8 * p.length) % 2 ^ 64))).length = 64 := by
      simp [beBytes]; omega
    obtain ⟨st1, hst1⟩ := sha1_transform_mk_some ctx.state ctx.k _ hb
    simp only [sha1_final_log, sha1_transform_log, hdl, h56, if_true, hdata, hst,
      Option.bind_eq_bind, Option.some_bind, hi1, hzf, Option.pure_def, hbl]
    rw [store_tail8 _ _ hp56 hj8, ← beBytes_8, hblk, hst1]
    simp only [Option.some_bind, emit_spec]
    have := blocksLog_append _ [] hb
    rw [List.append_nil] at this
    rw [this, blocksLog_short [] (by simp)]
    exact ⟨_, _, rfl⟩
  · have hzf := zeroFill_at_len (p ++ [0x80]) junk.tail 64 (by simp; omega)
    have hdrop : junk.tail.drop (64 - (p ++ [0x80]).length) = [] := by
      apply List.eq_nil_of_length_eq_zero; simp; omega
    have hn : 64 - (p ++ [0x80]).length = 63 - p.length := by simp
    rw [hdrop, List.append_nil, hn] at hzf
    have hb1 : (p ++ [0x80] ++ List.replicate (63 - p.length) 0).length = 64 := by
      simp; omega
    obtain ⟨st1, hst1⟩ := sha1_transform_mk_some ctx.state ctx.k _ hb1
    have hb2 : (List.replicate 56 0 ++ beBytes 8 ((ctx.bitlen + 8 * p.length) % 2 ^ 64)).length
        = 64 := by simp [beBytes]
    obtain ⟨st2, hst2⟩ := sha1_transform_mk_some st1 ctx.k _ hb2
    have hms : Mem.memset0 ((p ++ [0x80] ++ List.replicate (63 - p.length) 0).map some) 56
        = some ((List.replicate 56 0).map some
            ++ ((p ++ [0x80] ++ List.replicate (63 - p.length) 0).map some).drop 56) := by
      simp [Mem.memset0]; omega
    have hj8 : (((p ++ [0x80] ++ List.replicate (63 - p.length) 0).map some).drop 56).length
        = 8 := by simp; omega
    simp only [sha1_final_log, sha1_transform_log, hdl, h56, if_false, hdata, hst,
      Option.bind_eq_bind, Option.some_bind, hi1, hzf, Option.pure_def, hbl, hst1]
    simp only [hms, Option.some_bind, hbl]
    rw [store_tail8 _ _ (by simp) hj8, ← beBytes_8, hst2]
    simp only [Option.some_bind, emit_spec]
    have hsplit : p ++ ([0x80] ++ List.replicate (119 - p.length) 0 ++
          beBytes 8 ((ctx.bitlen + 8 * p.length) % 2 ^ 64))
        = (p ++ [0x80] ++ List.replicate (63 - p.length) 0) ++
          ((List.replicate 56 0 ++ beBytes 8 ((ctx.bitlen + 8 * p.length) % 2 ^ 64)) ++ []) := by
      have : 119 - p.length = (63 - p.length) + 56 := by omega
      rw [this, List.replicate_add]
      simp only [List.append_assoc, List.append_nil]
    rw [hsplit, blocksLog_append _ _ hb1, blocksLog_append _ _ hb2, blocksLog_short [] (by simp)]
    exact ⟨_, _, by rw [List.append_assoc]; rfl⟩

/-- Behind the last full block of `n` bytes there are `n mod 64` bytes. -/
theorem tailBytes_length (l : List Nat) : (tailBytes l).length = l.length % 64 := by
  simp only [tailBytes, List.length_drop]; omega

/-- The bytes behind the last full block are the last `n mod 64` bytes. -/
theorem tailBytes_eq_drop (l : List Nat) : tailBytes l = l.drop (l.length - l.length % 64) := by
  have : 64 * (l.length / 64) = l.length - l.length % 64 := by omega
  rw [tailBytes, this]

/-- After `sha1_init` no byte is pending. -/
theorem buffered_init (ctx0 : SHA1_CTX) (h : ctx0.data.length = 64) :
    Buffered (sha1_init ctx0) [] :=
  buffered_of_pending (pending_init ctx0 h)

/-- Absorbing `msg` into a fresh digest state: the blocks of `msg` are passed to the
transform, the bytes behind them stay pending and `bitlen` counts the compressed blocks. -/
theorem sha1_update_log_init (ctx0 : SHA1_CTX) (h : ctx0.data.length = 64) (msg : List Nat) :
    ∃ c1, sha1_update_log (sha1_init ctx0) [] msg = some (c1, blocksLog msg) ∧
      Buffered c1 (tailBytes msg) ∧ c1.k = (sha1_init ctx0).k ∧
      c1.bitlen = (512 * (msg.length / 64)) % 2 ^ 64 ∧
      ∀ rest, blocksLog msg ++ blocksLog (tailBytes msg ++ rest) = blocksLog (msg ++ rest) := by
  obtain ⟨c1, l1, p1, hc1, hB1, hk1, hlt1, hb1, hl1, ht1⟩ :=
    sha1_update_log_spec msg (sha1_init ctx0) [] [] (buffered_init ctx0 h)
  have hp1 : p1 = tailBytes msg := by
    have := ht1 []
    simp only [List.append_nil, List.nil_append] at this
    rw [← this, tailBytes_short p1 hB1.1]
  have hl : l1 = blocksLog msg := by
    have := hl1 []
    simp only [List.append_nil, List.nil_append, blocksLog_short p1 hB1.1] at this
    exact this
  have hbit : c1.bitlen = (512 * (msg.length / 64)) % 2 ^ 64 := by
    have h0 := hb1 0
    have hlt := hlt1 (by simp [sha1_init])
    have hp := hB1.1
    simp only [sha1_init, List.length_nil, Nat.add_zero, Nat.zero_add] at h0
    have : p1.length / 64 = 0 := Nat.div_eq_of_lt hp
    rw [this] at h0
    omega
  subst hp1 hl
  exact ⟨c1, hc1, hB1, hk1, hbit, fun rest => by simpa using hl1 rest⟩

/-- The block of a one-block finalisation. -/
theorem blocksLog_final_one (p : List Nat) (L : Nat) (hp : p.length < 56) :
    blocksLog (p ++ ([0x80] ++ List.replicate (55 - p.length) 0 ++ beBytes 8 L))
      = [(p ++ [0x80] ++ List.replicate (55 - p.length) 0 ++ beBytes 8 L).map some] := by
  have hb : (p ++ ([0x80] ++ List.replicate (55 - p.length) 0 ++ beBytes 8 L)).length = 64 := by
    simp [beBytes]; omega
  have := blocksLog_append _ [] hb
  rw [List.append_nil] at this
  rw [this, blocksLog_short [] (by simp)]
  simp only [List.append_assoc]

/-- The two blocks of a two-block finalisation. -/
theorem blocksLog_final_two (p : List Nat) (L : Nat) (hp : 56 ≤ p.length) (h64 : p.length < 64) :
    blocksLog (p ++ ([0x80] ++ List.replicate (119 - p.length) 0 ++ beBytes 8 L))
      = [(p ++ [0x80] ++ List.replicate (63 - p.length) 0).map some,
         (List.replicate 56 0 ++ beBytes 8 L).map some] := by
  have hb1 : (p ++ [0x80] ++ List.replicate (63 - p.length) 0).length = 64 := by
    simp; omega
  have hb2 : (List.replicate 56 0 ++ beBytes 8 L).length = 64 := by simp [beBytes]
  have hsplit : p ++ ([0x80] ++ List.replicate (119 - p.length) 0 ++ beBytes 8 L)
      = (p ++ [0x80] ++ List.replicate (63 - p.length) 0) ++
        ((List.replicate 56 0 ++ beBytes 8 L) ++ []) := by
    have : 119 - p.length = (63 - p.length) + 56 := by omega
    rw [this, List.replicate_add]
    simp only [List.append_assoc, List.append_nil]
  rw [hsplit, blocksLog_append _ _ hb1, blocksLog_append _ _ hb2, blocksLog_short [] (by simp)]

/-- The instrumented `sha1` returns the digest of `sha1` and logs the blocks of the message
followed by those of the finalisation. -/
theorem sha1_log_spec (msg : List Nat) :
    ∃ d, sha1 msg = some d ∧
      sha1_log msg = some (d, blocksLog msg ++ blocksLog (tailBytes msg ++ ([0x80] ++
        List.replicate (padZeros msg.length) 0 ++ beBytes 8 (8 * msg.length % 2 ^ 64)))) := by
  obtain ⟨c1, hc1, hB1, _, hbit, _⟩ :=
    sha1_update_log_init SHA1_CTX.uninit (by simp [SHA1_CTX.uninit, Mem.fresh]) msg
  obtain ⟨c2, out, hc2⟩ := sha1_final_log_spec c1 (blocksLog msg) (tailBytes msg) hB1
  have hlen := tailBytes_length msg
  have hbits : (c1.bitlen + 8 * (tailBytes msg).length) % 2 ^ 64 = 8 * msg.length % 2 ^ 64 := by
    rw [hbit, hlen]; omega
  rw [hbits, hlen] at hc2
  have hlog : sha1_log msg = some (out, blocksLog msg ++ blocksLog (tailBytes msg ++ ([0x80] ++
        List.replicate (padZeros msg.length) 0 ++ beBytes 8 (8 * msg.length % 2 ^ 64)))) := by
    simp only [sha1_log, hc1, Option.bind_eq_bind, Option.some_bind, hc2, Option.pure_def, padZeros]
  refine ⟨out, ?_, hlog⟩
  rw [← erase_sha1, hlog]; rfl

/-- A byte sequence of length `n` gives `n / 64` logged blocks. -/
theorem blocksLog_length (l : List Nat) : (blocksLog l).length = l.length / 64 := by
  simp [blocksLog, blocks64_length]

/-- The logged blocks are the consecutive blocks of the padded message. -/
theorem padding_split (msg : List Nat) :
    blocksLog msg ++ blocksLog (tailBytes msg ++ ([0x80] ++
        List.replicate (padZeros msg.length) 0 ++ beBytes 8 (8 * msg.length % 2 ^ 64)))
      = blocksLog (padded (padZeros msg.length) msg) := by
  obtain ⟨c1, _, _, _, _, h⟩ :=
    sha1_update_log_init SHA1_CTX.uninit (by simp [SHA1_CTX.uninit, Mem.fresh]) msg
  rw [h, padded]
  simp only [List.append_assoc]

/-- One iteration of the loop of `sha1_update` keeps `datalen` below 64 whenever it succeeds. -/
theorem sha1_update_byte_datalen (ctx ctx' : SHA1_CTX) (x : Nat) (h : ctx.datalen ≤ 63)
    (hs : sha1_update_byte ctx x = some ctx') : ctx'.datalen ≤ 63 := by
  simp only [sha1_update_byte, Option.bind_eq_bind, Option.pure_def] at hs
  cases hst : ctx.data.store ctx.datalen x with
  | none => rw [hst] at hs; cases hs
  | some d =>
    rw [hst, Option.some_bind] at hs
    have hmod : (ctx.datalen + 1) % 2 ^ 32 = ctx.datalen + 1 := by omega
    simp only [hmod] at hs
    by_cases h64 : ctx.datalen + 1 = 64
    · simp only [h64, if_true] at hs
      cases htr : sha1_transform
          { data := d, datalen := 64, bitlen := ctx.bitlen, state := ctx.state, k := ctx.k } d with
      | none => rw [htr] at hs; cases hs
      | some c => rw [htr, Option.some_bind] at hs; cases hs; simp
    · simp only [h64, if_false] at hs
      cases hs
      simp only; omega

/-- The loop of `sha1_update` keeps `datalen` below 64 whenever it succeeds. -/
theorem sha1_update_datalen (xs : List Nat) : ∀ (ctx ctx' : SHA1_CTX), ctx.datalen ≤ 63 →
    sha1_update ctx xs = some ctx' → ctx'.datalen ≤ 63 := by
  induction xs with
  | nil => intro ctx ctx' h hs; cases hs; exact h
  | cons x xs ih =>
    intro ctx ctx' h hs
    simp only [sha1_update, List.foldlM, Option.bind_eq_bind] at hs ih
    cases hb : sha1_update_byte ctx x with
    | none => rw [hb] at hs; cases hs
    | some c =>
      rw [hb, Option.some_bind] at hs
      exact ih c ctx' (sha1_update_byte_datalen ctx c x h hb) hs

/-- On a context that satisfies the buffer invariant `sha1_update` succeeds, and the bytes
behind the last full block of pending bytes and input stay pending. -/
theorem sha1_update_buffered (ctx : SHA1_CTX) (p xs : List Nat) (h : Buffered ctx p) :
    ∃ ctx', sha1_update ctx xs = some ctx' ∧ Buffered ctx' (tailBytes (p ++ xs)) := by
  obtain ⟨c1, l1, p1, hc1, hB1, _, _, _, _, ht1⟩ := sha1_update_log_spec xs ctx [] p h
  have hp1 : p1 = tailBytes (p ++ xs) := by
    have := ht1 []
    simp only [List.append_nil] at this
    rw [← this, tailBytes_short p1 hB1.1]
  subst hp1
  refine ⟨c1, ?_, hB1⟩
  rw [← erase_update, hc1]; rfl

/-- Absorbing `msg` into a fresh digest state with `sha1_update`. -/
theorem sha1_update_init (msg : List Nat) :
    ∃ ctx, sha1_update (sha1_init SHA1_CTX.uninit) msg = some ctx ∧
      Buffered ctx (tailBytes msg) ∧ ctx.bitlen = (512 * (msg.length / 64)) % 2 ^ 64 := by
  obtain ⟨c1, hc1, hB1, _, hbit, _⟩ :=
    sha1_update_log_init SHA1_CTX.uninit (by simp [SHA1_CTX.uninit, Mem.fresh]) msg
  refine ⟨c1, ?_, hB1, hbit⟩
  rw [← erase_update, hc1]; rfl

/-- A context with a 64-cell buffer whose first `datalen ≤ 63` cells are written satisfies
the buffer invariant for the bytes in these cells. -/
theorem buffered_of_written (ctx : SHA1_CTX) (hdl : ctx.datalen ≤ 63)
    (h64 : ctx.data.length = 64)
    (hinit : ∀ i, i < ctx.datalen → (ctx.data.load i).isSome = true) :
    Buffered ctx ((ctx.data.take ctx.datalen).map (fun c => c.getD 0)) := by
  have hlen : ((ctx.data.take ctx.datalen).map (fun c => c.getD 0)).length = ctx.datalen := by
    rw [List.length_map, List.length_take, h64]; omega
  refine ⟨by omega, hlen.symm, h64, ?_⟩
  rw [hlen, List.map_map]
  have : ∀ c ∈ ctx.data.take ctx.datalen, (some ∘ fun c => Option.getD c 0) c = id c := by
    intro c hc
    obtain ⟨i, hi, rfl⟩ := List.mem_take_iff_getElem.mp hc
    have hi' : i < ctx.datalen := by omega
    have hil : i < ctx.data.length := by omega
    have := hinit i hi'
    simp only [Mem.load, List.getElem?_eq_getElem hil, Option.join] at this
    cases hci : ctx.data[i] with
    | none => rw [hci] at this; cases this
    | some v => simp
  rw [List.map_congr_left this, List.map_id]

/-- The function `sha1_transform` is `sha1_schedule` followed by `sha1_rounds`. -/
theorem sha1_transform_eq_schedule_rounds (ctx : SHA1_CTX) (data : Mem) :
    sha1_transform ctx data = (sha1_schedule data).bind (sha1_rounds ctx) := by
  simp only [sha1_transform, sha1_schedule, sha1_rounds, Option.bind_eq_bind, Option.bind_assoc]

/-- Reading a cell of a fully written array. -/
theorem load_map_some_getD (blk : List Nat) (j : Nat) (h : j < blk.length) :
    Mem.load (blk.map some) j = some (blk.getD j 0) := by
  simp [Mem.load, h, List.getD_eq_getElem?_getD, List.getElem?_eq_getElem h]

/-- The first loop body of `sha1_transform` stores `codeWord blk i` in `m[i]`. -/
theorem loadWord_eq (blk : List Nat) (hb : blk.length = 64) (m : Mem) (i : Nat)
    (hi : i < 16) (hm : i < m.length) :
    loadWord (blk.map some) m i = some (m.set i (some (codeWord blk i))) := by
  simp only [loadWord, load_map_some_getD blk _ (show 4 * i < blk.length by omega),
    load_map_some_getD blk _ (show 4 * i + 1 < blk.length by omega),
    load_map_some_getD blk _ (show 4 * i + 2 < blk.length by omega),
    load_map_some_getD blk _ (show 4 * i + 3 < blk.length by omega),
    Mem.store_eq _ _ _ hm, Option.bind_eq_bind, Option.some_bind, codeWord]

/-- The second loop body of `sha1_transform` stores the rotated XOR in `m[i]`. -/
theorem expandWord_eq (m : Mem) (i x3 x8 x14 x16 : Nat) (h16 : 16 ≤ i) (hi : i < 80)
    (hm : i < m.length) (h3 : m.load (i - 3) = some x3) (h8 : m.load (i - 8) = some x8)
    (h14 : m.load (i - 14) = some x14) (hx16 : m.load (i - 16) = some x16) :
    expandWord m i = some (m.set i (some (ROTLEFT (x3 ^^^ x8 ^^^ x14 ^^^ x16) 1))) := by
  have hm' : ∀ v, i < (m.set i (some v)).length := by intro v; simpa using hm
  simp only [expandWord, sub32_eq i 3 (by omega) (by omega), sub32_eq i 8 (by omega) (by omega),
    sub32_eq i 14 (by omega) (by omega), sub32_eq i 16 (by omega) (by omega),
    h3, h8, h14, hx16, Mem.store_eq _ _ _ hm, Mem.store_eq _ _ _ (hm' _), Mem.load_set _ _ _ _ hm,
    Option.bind_eq_bind, Option.some_bind, if_true, List.set_set, ROTLEFT]

/-- Rotating a 32-bit word by one bit gives a 32-bit word. -/
theorem ROTLEFT_one_lt (x : Nat) (hx : x < 2 ^ 32) : ROTLEFT x 1 < 2 ^ 32 := by
  unfold ROTLEFT
  apply Nat.or_lt_two_pow (Nat.mod_lt _ (by norm_num))
  rw [Nat.shiftRight_eq_div_pow]
  exact lt_of_le_of_lt (Nat.div_le_self _ _) hx

/-- Writing `m[n]` with the value the loops compute extends the schedule invariant. -/
theorem schedOK_set (blk : List Nat) (m : Mem) (n v : Nat) (hn : n < 80) (hm : SchedOK blk n m)
    (hv : v < 2 ^ 32) (hlo : n < 16 → v = codeWord blk n)
    (hhi : 16 ≤ n → ∃ x3 x8 x14 x16, m.load (n - 3) = some x3 ∧ m.load (n - 8) = some x8 ∧
      m.load (n - 14) = some x14 ∧ m.load (n - 16) = some x16 ∧
      v = ROTLEFT (x3 ^^^ x8 ^^^ x14 ^^^ x16) 1) :
    SchedOK blk (n + 1) (m.set n (some v)) := by
  obtain ⟨hlen, hb, hw, hr⟩ := hm
  have hnl : n < m.length := by omega
  have hother : ∀ j, j < n → Mem.load (m.set n (some v)) j = m.load j := by
    intro j hj
    rw [Mem.load_set _ _ _ _ hnl, if_neg (by omega)]
  have hsame : Mem.load (m.set n (some v)) n = some v := by
    rw [Mem.load_set _ _ _ _ hnl, if_pos rfl]
  refine ⟨by simp [hlen], ?_, ?_, ?_⟩
  · intro i hi
    by_cases hin : i = n
    · subst hin; exact ⟨v, hsame, hv⟩
    · rw [hother i (by omega)]; exact hb i (by omega)
  · intro i hi hi16
    by_cases hin : i = n
    · subst hin; rw [hsame, hlo hi16]
    · rw [hother i (by omega)]; exact hw i (by omega) hi16
  · intro i h16 hi
    by_cases hin : i = n
    · subst hin
      obtain ⟨x3, x8, x14, x16, h3, h8, h14, hx16, hveq⟩ := hhi h16
      refine ⟨x3, x8, x14, x16, ?_, ?_, ?_, ?_, ?_⟩
      · rw [hother _ (by omega)]; exact h3
      · rw [hother _ (by omega)]; exact h8
      · rw [hother _ (by omega)]; exact h14
      · rw [hother _ (by omega)]; exact hx16
      · rw [hsame, hveq]
    · obtain ⟨x3, x8, x14, x16, h3, h8, h14, hx16, hveq⟩ := hr i h16 (by omega)
      refine ⟨x3, x8, x14, x16, ?_, ?_, ?_, ?_, ?_⟩
      · rw [hother _ (by omega)]; exact h3
      · rw [hother _ (by omega)]; exact h8
      · rw [hother _ (by omega)]; exact h14
      · rw [hother _ (by omega)]; exact hx16
      · rw [hother _ (by omega)]; exact hveq

/-- The two schedule loops succeed on every 64-byte block and establish the invariant
for all 80 words. -/
theorem sha1_schedule_ok (blk : List Nat) (hb : blk.length = 64) :
    ∃ m, sha1_schedule (blk.map some) = some m ∧ SchedOK blk 80 m := by
  obtain ⟨m1, h1, hm1⟩ := foldlM_range'_inv (loadWord (blk.map some)) (SchedOK blk) 16 0
    (Mem.fresh 80)
    ⟨by simp [Mem.fresh], fun j hj => absurd hj (by omega), fun j hj => absurd hj (by omega),
      fun j _ hj => absurd hj (by omega)⟩
    (fun i c _ hi hc => by
      have hi16 : i < 16 := by omega
      rw [loadWord_eq blk hb c i hi16 (by have := hc.1; omega)]
      exact ⟨_, rfl, schedOK_set blk c i _ (by omega) hc (Nat.mod_lt _ (by norm_num))
        (fun _ => rfl) (fun h => absurd h (by omega))⟩)
  obtain ⟨m, h2, hm⟩ := foldlM_range'_inv expandWord (SchedOK blk) 64 16 m1 hm1
    (fun i c h16 hi hc => by
      have hi80 : i < 80 := by omega
      obtain ⟨x3, h3, b3⟩ := hc.2.1 (i - 3) (by omega)
      obtain ⟨x8, h8, b8⟩ := hc.2.1 (i - 8) (by omega)
      obtain ⟨x14, h14, b14⟩ := hc.2.1 (i - 14) (by omega)
      obtain ⟨x16, hx16, b16⟩ := hc.2.1 (i - 16) (by omega)
      rw [expandWord_eq c i x3 x8 x14 x16 h16 hi80 (by have := hc.1; omega) h3 h8 h14 hx16]
      exact ⟨_, rfl, schedOK_set blk c i _ hi80 hc
        (ROTLEFT_one_lt _ (Nat.xor_lt_two_pow (Nat.xor_lt_two_pow (Nat.xor_lt_two_pow b3 b8) b14) b16))
        (fun h => absurd h16 (by omega)) (fun _ => ⟨x3, x8, x14, x16, h3, h8, h14, hx16, rfl⟩)⟩)
  refine ⟨m, ?_, hm⟩
  simp only [sha1_schedule, h1, Option.bind_eq_bind, Option.some_bind]
  exact h2

/-- The sum of four bytes shifted to their places in a word is their bitwise OR. -/
theorem word_sum_eq_or (b0 b1 b2 b3 : Nat) (h1 : b1 < 256) (h2 : b2 < 256) (h3 : b3 < 256) :
    (b0 <<< 24) + (b1 <<< 16) + (b2 <<< 8) + b3
      = (b0 <<< 24) ||| (b1 <<< 16) ||| (b2 <<< 8) ||| b3 := by
  have e0 : b0 <<< 24 = 2 ^ 24 * b0 := by rw [Nat.shiftLeft_eq, Nat.mul_comm]
  have e1 : b1 <<< 16 = 2 ^ 16 * b1 := by rw [Nat.shiftLeft_eq, Nat.mul_comm]
  have e2 : b2 <<< 8 = 2 ^ 8 * b2 := by rw [Nat.shiftLeft_eq, Nat.mul_comm]
  have a2 : 2 ^ 8 * b2 + b3 = 2 ^ 8 * b2 ||| b3 := Nat.mul_add_lt_is_or (by omega) b2
  have a1 : 2 ^ 16 * b1 + (2 ^ 8 * b2 + b3) = 2 ^ 16 * b1 ||| (2 ^ 8 * b2 + b3) :=
    Nat.mul_add_lt_is_or (by omega) b1
  have a0 : 2 ^ 24 * b0 + (2 ^ 16 * b1 + (2 ^ 8 * b2 + b3))
      = 2 ^ 24 * b0 ||| (2 ^ 16 * b1 + (2 ^ 8 * b2 + b3)) :=
    Nat.mul_add_lt_is_or (by omega) b0
  rw [e0, e1, e2, Nat.add_assoc, Nat.add_assoc, a0, a1, a2, Nat.or_assoc, Nat.or_assoc]

/-- On bytes the word stored by the first loop is the big-endian word, with no reduction
modulo `2^32` taking place. -/
theorem codeWord_eq_specWord (blk : List Nat) (i : Nat) (hbytes : ∀ b ∈ blk, b < 256) :
    codeWord blk i = specWord blk i ∧ specWord blk i < 2 ^ 32 ∧
    ∀ j, blk.getD j 0 < 256 := by
  have hget : ∀ j, blk.getD j 0 < 256 := by
    intro j
    rw [List.getD_eq_getElem?_getD]
    cases h : blk[j]? with
    | none => simp
    | some b => exact hbytes b (List.getElem?_mem h)
  have h0 := hget (4 * i)
  have h1 := hget (4 * i + 1)
  have h2 := hget (4 * i + 2)
  have h3 := hget (4 * i + 3)
  simp only [codeWord, specWord, Nat.shiftLeft_eq]
  refine ⟨?_, ?_, hget⟩ <;> omega

/-- The macro `ROTLEFT(x, 1)` is the left rotation by one bit of a 32-bit word. -/
theorem ROTLEFT_one_eq_specRotl1 (x : Nat) (hx : x < 2 ^ 32) : ROTLEFT x 1 = specRotl1 x := by
  have e1 : (x <<< 1) % 2 ^ 32 = 2 ^ 1 * (x % 2 ^ 31) := by
    rw [Nat.shiftLeft_eq]; omega
  have e2 : x >>> (32 - 1) = x / 2 ^ 31 := by
    rw [Nat.shiftRight_eq_div_pow]
  have hlt : x / 2 ^ 31 < 2 ^ 1 := by omega
  rw [ROTLEFT, specRotl1, e1, e2, ← Nat.mul_add_lt_is_or hlt]
  omega

/-! ## Claims C1 – C10 -/

/-- C1. For every key and message, with `K` the normalised 64-byte key of `hmacSha1`,
the inner pad `0x36 XOR K[i]` and the outer pad `0x5c XOR K[i]` (all 64 positions),
the inner digest `sha1 (ipad ++ message)` exists and `hmacSha1 key message` is
`sha1 (opad ++ inner digest)`, which exists as well. -/
theorem hmacSha1_eq_nested_sha1 (key message : List Nat) :
    ∃ K inner tag, hmacSha1_key key = some K ∧ K.length = 64 ∧
      sha1 (K.map (fun b => 0x36 ^^^ b) ++ message) = some inner ∧
      sha1 (K.map (fun b => 0x5c ^^^ b) ++ inner) = some tag ∧
      hmacSha1 key message = sha1 (K.map (fun b => 0x5c ^^^ b) ++ inner) := by
  obtain ⟨K, hK, hlen, _⟩ := hmacSha1_key_spec key
  obtain ⟨inner, hinner, _⟩ := sha1_some (K.map (fun b => 0x36 ^^^ b) ++ message)
  obtain ⟨tag, htag, _⟩ := sha1_some (K.map (fun b => 0x5c ^^^ b) ++ inner)
  refine ⟨K, inner, tag, hK, hlen, hinner, htag, ?_⟩
  rw [hmacSha1_of_key key K message hK hlen, hinner, Option.some_bind]

/-- C2. For every message `msg` of `n` bytes there is a least `k` making
`n + 1 + k + 8` a multiple of 64, and `sha1 msg` is the most-significant-byte-first
serialisation of the accumulator words obtained by folding the compression transform,
from `(0x67452301, 0xEFCDAB89, 0x98BADCFE, 0x10325476, 0xC3D2E1F0)`, over the consecutive
64-byte blocks of `msg ++ [0x80] ++ k zero bytes ++` the 8-byte big-endian encoding of
`8 * n mod 2^64`. -/
theorem sha1_eq_fold_over_padded (msg : List Nat) :
    ∃ k st, (msg.length + 1 + k + 8) % 64 = 0 ∧
      (∀ j, j < k → (msg.length + 1 + j + 8) % 64 ≠ 0) ∧
      foldBlocks (0x67452301, 0xEFCDAB89, 0x98BADCFE, 0x10325476, 0xC3D2E1F0)
        (msg ++ [0x80] ++ List.replicate k 0 ++ beBytes 8 (8 * msg.length % 2 ^ 64)) = some st ∧
      sha1 msg = some (serialise st) ∧ (serialise st).length = 20 := by
  obtain ⟨st, hfold, hsha⟩ := sha1_spec msg
  refine ⟨padZeros msg.length, st, (padZeros_spec msg.length).1, (padZeros_spec msg.length).2,
    ?_, hsha, serialise_length st⟩
  rw [← hfold]
  simp only [List.append_assoc]

set_option maxRecDepth 1000000 in
/-- C3. The tag of key "key" and message "The quick brown fox jumps over the lazy dog"
(both as ASCII bytes) is de7c9b85b8b78aa6bc8a7a36f70a90701c9db4d9. -/
theorem hmacSha1_known_vector :
    hmacSha1 [0x6b, 0x65, 0x79]
      [0x54, 0x68, 0x65, 0x20, 0x71, 0x75, 0x69, 0x63, 0x6b, 0x20, 0x62, 0x72, 0x6f, 0x77,
       0x6e, 0x20, 0x66, 0x6f, 0x78, 0x20, 0x6a, 0x75, 0x6d, 0x70, 0x73, 0x20, 0x6f, 0x76,
       0x65, 0x72, 0x20, 0x74, 0x68, 0x65, 0x20, 0x6c, 0x61, 0x7a, 0x79, 0x20, 0x64, 0x6f,
       0x67]
      = some [0xde, 0x7c, 0x9b, 0x85, 0xb8, 0xb7, 0x8a, 0xa6, 0xbc, 0x8a,
              0x7a, 0x36, 0xf7, 0x0a, 0x90, 0x70, 0x1c, 0x9d, 0xb4, 0xd9] := by
  decide

set_option maxRecDepth 1000000 in
/-- C4. The digest of the empty byte sequence is
da39a3ee5e6b4b0d3255bfef95601890afd80709. -/
theorem sha1_empty_vector :
    sha1 [] = some [0xda, 0x39, 0xa3, 0xee, 0x5e, 0x6b, 0x4b, 0x0d, 0x32, 0x55,
                    0xbf, 0xef, 0x95, 0x60, 0x18, 0x90, 0xaf, 0xd8, 0x07, 0x09] := by
  decide

set_option maxRecDepth 1000000 in
/-- C5. The digest of the three bytes "abc" is
a9993e364706816aba3e25717850c26c9cd0d89d. -/
theorem sha1_abc_vector :
    sha1 [0x61, 0x62, 0x63]
      = some [0xa9, 0x99, 0x3e, 0x36, 0x47, 0x06, 0x81, 0x6a, 0xba, 0x3e,
              0x25, 0x71, 0x78, 0x50, 0xc2, 0x6c, 0x9c, 0xd0, 0xd8, 0x9d] := by
  decide

/-- C6. For every input key the key `hmacSha1` builds its pads from exists and has
exactly 64 bytes: for a key longer than 64 bytes it is the 20-byte digest of the key
followed by 44 zero bytes, for a key shorter than 64 bytes it is the key followed by
zero bytes up to length 64, and a key of exactly 64 bytes is used unchanged. -/
theorem hmacSha1_key_normalised (key : List Nat) :
    ∃ K, hmacSha1_key key = some K ∧ K.length = 64 ∧
      (64 < key.length → ∃ d, sha1 key = some d ∧ d.length = 20 ∧ K = d ++ List.replicate 44 0) ∧
      (key.length < 64 → K = key ++ List.replicate (64 - key.length) 0) ∧
      (key.length = 64 → K = key) :=
  hmacSha1_key_spec key

/-- C7. For every key longer than 64 bytes and every message `m`, the digest `d` of
the key exists, `d` followed by 44 zero bytes has 64 bytes, and `hmacSha1 key m` and
`hmacSha1 (d ++ 44 zero bytes) m` are the same tag. -/
theorem hmacSha1_long_key (key m : List Nat) (hlong : 64 < key.length) :
    ∃ d tag, sha1 key = some d ∧ (d ++ List.replicate 44 0).length = 64 ∧
      hmacSha1 key m = some tag ∧ hmacSha1 (d ++ List.replicate 44 0) m = some tag := by
  obtain ⟨K, hK, hlen, hcase, _⟩ := hmacSha1_key_spec key
  obtain ⟨d, hd, _, rfl⟩ := hcase hlong
  obtain ⟨inner, hinner, _⟩ := sha1_some ((d ++ List.replicate 44 0).map (fun b => 0x36 ^^^ b) ++ m)
  obtain ⟨tag, htag, _⟩ :=
    sha1_some ((d ++ List.replicate 44 0).map (fun b => 0x5c ^^^ b) ++ inner)
  refine ⟨d, tag, hd, hlen, ?_, ?_⟩
  · rw [hmacSha1_of_key key _ m hK hlen, hinner, Option.some_bind, htag]
  · rw [hmacSha1_of_key _ _ m (hmacSha1_key_idem _ hlen) hlen, hinner, Option.some_bind, htag]

/-- C7 at the regression key of the spec: a key of 100 bytes. -/
theorem hmacSha1_long_key_witness :
    64 < (List.replicate 100 0x61).length ∧
    ∃ d tag, sha1 (List.replicate 100 0x61) = some d ∧
      (d ++ List.replicate 44 0).length = 64 ∧
      hmacSha1 (List.replicate 100 0x61) [0x6d, 0x73, 0x67] = some tag ∧
      hmacSha1 (d ++ List.replicate 44 0) [0x6d, 0x73, 0x67] = some tag :=
  ⟨by decide, hmacSha1_long_key (List.replicate 100 0x61) [0x6d, 0x73, 0x67] (by decide)⟩

/-- C8, as stated, fails: there are no key longer than 64 bytes and message `m` for which
`hmacSha1 key m` differs from `hmacSha1` keyed with the unpadded 20-byte digest of the
key. -/
theorem hmacSha1_digest_key_never_differs :
    ¬ ∃ key m : List Nat, 64 < key.length ∧
      hmacSha1 key m ≠ (sha1 key).bind (fun d => hmacSha1 d m) := by
  rintro ⟨key, m, hlong, hne⟩
  apply hne
  obtain ⟨K, hK, hlen, hcase, _⟩ := hmacSha1_key_spec key
  obtain ⟨d, hd, hd20, rfl⟩ := hcase hlong
  obtain ⟨K2, hK2, hlen2, _, hshort, _⟩ := hmacSha1_key_spec d
  have h2 : K2 = d ++ List.replicate 44 0 := by
    rw [hshort (by omega), hd20]
  subst h2
  rw [hd, Option.some_bind, hmacSha1_of_key key _ m hK hlen, hmacSha1_of_key d _ m hK2 hlen]

/-- C8, amended. For every key longer than 64 bytes and every message `m`, the digest
`d` of the key exists and has 20 bytes, and `hmacSha1 key m` and `hmacSha1 d m` (the
unpadded digest passed as the key) are the same tag. -/
theorem hmacSha1_digest_key_same (key m : List Nat) (hlong : 64 < key.length) :
    ∃ d tag, sha1 key = some d ∧ d.length = 20 ∧
      hmacSha1 key m = some tag ∧ hmacSha1 d m = some tag := by
  obtain ⟨K, hK, hlen, hcase, _⟩ := hmacSha1_key_spec key
  obtain ⟨d, hd, hd20, rfl⟩ := hcase hlong
  obtain ⟨K2, hK2, hlen2, _, hshort, _⟩ := hmacSha1_key_spec d
  have h2 : K2 = d ++ List.replicate 44 0 := by
    rw [hshort (by omega), hd20]
  subst h2
  obtain ⟨inner, hinner, _⟩ := sha1_some ((d ++ List.replicate 44 0).map (fun b => 0x36 ^^^ b) ++ m)
  obtain ⟨tag, htag, _⟩ :=
    sha1_some ((d ++ List.replicate 44 0).map (fun b => 0x5c ^^^ b) ++ inner)
  refine ⟨d, tag, hd, hd20, ?_, ?_⟩
  · rw [hmacSha1_of_key key _ m hK hlen, hinner, Option.some_bind, htag]
  · rw [hmacSha1_of_key d _ m hK2 hlen, hinner, Option.some_bind, htag]

/-- C8, amended, at a key of 65 bytes and a one-byte message. -/
theorem hmacSha1_digest_key_same_witness :
    64 < (List.replicate 65 0x6b).length ∧
    ∃ d tag, sha1 (List.replicate 65 0x6b) = some d ∧ d.length = 20 ∧
      hmacSha1 (List.replicate 65 0x6b) [0x6d] = some tag ∧ hmacSha1 d [0x6d] = some tag :=
  ⟨by decide, hmacSha1_digest_key_same (List.replicate 65 0x6b) [0x6d] (by decide)⟩

/-- C9. For every message `sha1` returns exactly 20 bytes, and for every key and
message `hmacSha1` returns exactly 20 bytes. -/
theorem sha1_hmacSha1_length :
    (∀ msg : List Nat, ∃ d, sha1 msg = some d ∧ d.length = 20) ∧
    (∀ key message : List Nat, ∃ tag, hmacSha1 key message = some tag ∧ tag.length = 20) := by
  refine ⟨sha1_some, fun key message => ?_⟩
  obtain ⟨K, hK, hlen, _⟩ := hmacSha1_key_spec key
  obtain ⟨inner, hinner, _⟩ := sha1_some (K.map (fun b => 0x36 ^^^ b) ++ message)
  obtain ⟨tag, htag, htag20⟩ := sha1_some (K.map (fun b => 0x5c ^^^ b) ++ inner)
  exact ⟨tag, by rw [hmacSha1_of_key key K message hK hlen, hinner, Option.some_bind, htag],
    htag20⟩

/-- C10. In the embedding every indexed access is checked: a store succeeds only at an
index inside the array and a load only at an index inside the array (for a raw array:
of a cell written before). With these checks in place `sha1` succeeds on every byte
sequence and `hmacSha1` on every key and message, the empty ones included, so no access
of `sha1_update`, `sha1_final`, `sha1_transform` or `hmacSha1` is out of bounds. In
particular: after absorbing any message the buffer has 64 cells and the write index
`datalen` is below 64; the schedule indices `i - 3`, `i - 8`, `i - 14`, `i - 16` computed
on `uint32_t` lie below 80 (and below `i`) for `16 ≤ i < 80`; the block indices
`4 * i .. 4 * i + 3` lie below 64 for `i < 16`; and every `key[i]`, `i < 64`, is inside
the normalised key. -/
theorem sha1_hmacSha1_total :
    (∀ (a a' : Mem) (i v : Nat), a.store i v = some a' → i < a.length) ∧
    (∀ (a : Mem) (i v : Nat), a.load i = some v → i < a.length) ∧
    (∀ (a a' : List Nat) (i v : Nat), storeAt a i v = some a' → i < a.length) ∧
    (∀ (a : List Nat) (i v : Nat), loadAt a i = some v → i < a.length) ∧
    (∀ msg : List Nat, (sha1 msg).isSome = true) ∧
    (∀ key message : List Nat, (hmacSha1 key message).isSome = true) ∧
    (sha1 []).isSome = true ∧ (hmacSha1 [] []).isSome = true ∧
    (∀ msg : List Nat, ∃ ctx, sha1_update (sha1_init SHA1_CTX.uninit) msg = some ctx ∧
      ctx.data.length = 64 ∧ ctx.datalen < 64) ∧
    (∀ i, 16 ≤ i → i < 80 →
      sub32 i 3 < 80 ∧ sub32 i 8 < 80 ∧ sub32 i 14 < 80 ∧ sub32 i 16 < 80 ∧
      sub32 i 3 < i ∧ sub32 i 8 < i ∧ sub32 i 14 < i ∧ sub32 i 16 < i) ∧
    (∀ i, i < 16 → 4 * i + 3 < 64) ∧
    (∀ key : List Nat, ∃ K, hmacSha1_key key = some K ∧
      ∀ i, i < block → (loadAt K i).isSome = true) := by
  have hsha : ∀ msg : List Nat, (sha1 msg).isSome = true := fun msg => by
    obtain ⟨d, hd, _⟩ := sha1_some msg
    rw [hd]; rfl
  have hmac : ∀ key message : List Nat, (hmacSha1 key message).isSome = true :=
    fun key message => by
      obtain ⟨K, hK, hlen, _⟩ := hmacSha1_key_spec key
      obtain ⟨inner, hinner, _⟩ := sha1_some (K.map (fun b => 0x36 ^^^ b) ++ message)
      rw [hmacSha1_of_key key K message hK hlen, hinner, Option.some_bind]
      exact hsha _
  refine ⟨?_, ?_, ?_, ?_, hsha, hmac, hsha [], hmac [] [], ?_, ?_, ?_, ?_⟩
  · intro a a' i v h
    by_contra hi
    simp [Mem.store, storeAt, hi] at h
  · intro a i v h
    by_contra hi
    simp [Mem.load, List.getElem?_eq_none (Nat.le_of_not_lt hi)] at h
  · intro a a' i v h
    by_contra hi
    simp [storeAt, hi] at h
  · intro a i v h
    by_contra hi
    simp [loadAt, List.getElem?_eq_none (Nat.le_of_not_lt hi)] at h
  · intro msg
    obtain ⟨ctx, p, hctx, hP, _⟩ := sha1_update_spec msg (sha1_init SHA1_CTX.uninit) []
      (pending_init SHA1_CTX.uninit (by simp [SHA1_CTX.uninit, Mem.fresh]))
    exact ⟨ctx, hctx, hP.2.2.2.1, by rw [hP.2.1]; exact hP.1⟩
  · intro i h16 h80
    rw [sub32_eq i 3 (by omega) (by omega), sub32_eq i 8 (by omega) (by omega),
      sub32_eq i 14 (by omega) (by omega), sub32_eq i 16 (by omega) (by omega)]
    omega
  · intro i hi
    omega
  · intro key
    obtain ⟨K, hK, hlen, _⟩ := hmacSha1_key_spec key
    refine ⟨K, hK, fun i hi => ?_⟩
    have hi64 : i < K.length := by rw [hlen]; exact hi
    simp [loadAt, List.getElem?_eq_getElem hi64]

/-! ## Claims C11 – C20 -/

/-- C11. The function `sha1_init` leaves the data buffer of the context as it was, and
for every message and any two contexts whose 64-cell buffers hold whatever contents, the
sequence `sha1_init`, `sha1_update`, `sha1_final` emits the same 20 bytes, which are also
the bytes `sha1` returns from its local context, none of whose cells is written (so every
cell a transform reads was written earlier in the same computation). -/
theorem sha1_buffer_independent (ctx1 ctx2 : SHA1_CTX) (msg : List Nat)
    (h1 : ctx1.data.length = 64) (h2 : ctx2.data.length = 64) :
    (sha1_init ctx1).data = ctx1.data ∧
    ∃ d, d.length = 20 ∧
      ((sha1_update (sha1_init ctx1) msg).bind fun c =>
        (sha1_final c (List.replicate 20 0)).map (·.2)) = some d ∧
      ((sha1_update (sha1_init ctx2) msg).bind fun c =>
        (sha1_final c (List.replicate 20 0)).map (·.2)) = some d ∧
      sha1 msg = some d := by
  obtain ⟨st1, hf1, hr1⟩ := sha1_run_spec ctx1 h1 msg
  obtain ⟨st2, hf2, hr2⟩ := sha1_run_spec ctx2 h2 msg
  obtain ⟨st3, hf3, hr3⟩ := sha1_run_spec SHA1_CTX.uninit (by simp [SHA1_CTX.uninit, Mem.fresh]) msg
  have e2 : st2 = st1 := by
    have : some st2 = some st1 := by rw [← hf2, ← hf1]; rfl
    exact Option.some.inj this
  have e3 : st3 = st1 := by
    have : some st3 = some st1 := by rw [← hf3, ← hf1]; rfl
    exact Option.some.inj this
  rw [e2] at hr2
  rw [e3] at hr3
  exact ⟨rfl, serialise st1, serialise_length st1, hr1, hr2, by rw [sha1_eq, hr3]⟩

/-- C11 at the message "abc", for an unwritten buffer and a buffer filled with `0xAA`. -/
theorem sha1_buffer_independent_witness :
    (SHA1_CTX.uninit).data.length = 64 ∧
    ({ SHA1_CTX.uninit with data := List.replicate 64 (some 0xAA) } : SHA1_CTX).data.length = 64 ∧
    ∃ d, d.length = 20 ∧
      ((sha1_update (sha1_init SHA1_CTX.uninit) [0x61, 0x62, 0x63]).bind fun c =>
        (sha1_final c (List.replicate 20 0)).map (·.2)) = some d ∧
      ((sha1_update (sha1_init { SHA1_CTX.uninit with data := List.replicate 64 (some 0xAA) })
          [0x61, 0x62, 0x63]).bind fun c =>
        (sha1_final c (List.replicate 20 0)).map (·.2)) = some d ∧
      sha1 [0x61, 0x62, 0x63] = some d :=
  ⟨by decide, by decide,
    (sha1_buffer_independent SHA1_CTX.uninit
      { SHA1_CTX.uninit with data := List.replicate 64 (some 0xAA) } [0x61, 0x62, 0x63]
      (by decide) (by decide)).2⟩

/-- C12. For every message of `n` bytes the blocks passed to `sha1_transform` during
`sha1`, in the order of the calls, are the consecutive 64-byte blocks of the padded
message; there are `n / 64 + 1` of them when `n mod 64 ≤ 55` and `n / 64 + 2` otherwise
(one for `n = 0, 55`, two for `n = 56, 63, 64, 65`, sixteen for `n = 1000`), and in the
two-block finalisation the last one is 56 zero bytes followed by the 8 length bytes. -/
theorem sha1_block_count (msg : List Nat) :
    ∃ d log, sha1_log msg = some (d, log) ∧ sha1 msg = some d ∧
      log = blocksLog (padded (padZeros msg.length) msg) ∧
      log.length = (if msg.length % 64 ≤ 55 then msg.length / 64 + 1 else msg.length / 64 + 2) ∧
      (56 ≤ msg.length % 64 → log.getLast? =
        some ((List.replicate 56 0 ++ beBytes 8 (8 * msg.length % 2 ^ 64)).map some)) ∧
      (msg.length = 0 ∨ msg.length = 55 → log.length = 1) ∧
      (msg.length = 56 ∨ msg.length = 63 ∨ msg.length = 64 ∨ msg.length = 65 →
        log.length = 2) ∧
      (msg.length = 1000 → log.length = 16) := by
  obtain ⟨d, hd, hlog⟩ := sha1_log_spec msg
  have htl := tailBytes_length msg
  have hlen : (blocksLog msg ++ blocksLog (tailBytes msg ++ ([0x80] ++
        List.replicate (padZeros msg.length) 0 ++ beBytes 8 (8 * msg.length % 2 ^ 64)))).length
      = (if msg.length % 64 ≤ 55 then msg.length / 64 + 1 else msg.length / 64 + 2) := by
    rw [List.length_append, blocksLog_length, blocksLog_length]
    simp only [List.length_append, List.length_replicate, List.length_singleton, beBytes_length,
      htl, padZeros]
    split <;> split <;> omega
  refine ⟨d, _, hlog, hd, padding_split msg, hlen, ?_, ?_, ?_, ?_⟩
  · intro h56
    have hp : padZeros msg.length = 119 - (tailBytes msg).length := by
      rw [htl, padZeros, if_neg (by omega)]
    rw [hp, blocksLog_final_two _ _ (by omega) (by omega)]
    simp
  · intro h; rw [hlen]; rcases h with h | h <;> simp [h]
  · intro h; rw [hlen]; rcases h with h | h | h | h <;> simp [h]
  · intro h; rw [hlen]; simp [h]

/-- C13. For every message of `n` bytes the last block passed to `sha1_transform` has 64
cells, and its cells 56..63 hold the big-endian encoding of `8 * n mod 2^64`: cell 56 the
bits 63..56, …, cell 63 the bits 7..0; for `n < 2^61` this value is `8 * n` itself. -/
theorem sha1_length_field (msg : List Nat) :
    ∃ d log last, sha1_log msg = some (d, log) ∧ log.getLast? = some last ∧
      last.length = 64 ∧
      last.drop 56 = (beBytes 8 (8 * msg.length % 2 ^ 64)).map some ∧
      last.drop 56 =
        [some ((8 * msg.length % 2 ^ 64) >>> 56 % 256), some ((8 * msg.length % 2 ^ 64) >>> 48 % 256),
         some ((8 * msg.length % 2 ^ 64) >>> 40 % 256), some ((8 * msg.length % 2 ^ 64) >>> 32 % 256),
         some ((8 * msg.length % 2 ^ 64) >>> 24 % 256), some ((8 * msg.length % 2 ^ 64) >>> 16 % 256),
         some ((8 * msg.length % 2 ^ 64) >>> 8 % 256), some ((8 * msg.length % 2 ^ 64) % 256)] ∧
      (msg.length < 2 ^ 61 → 8 * msg.length % 2 ^ 64 = 8 * msg.length) := by
  obtain ⟨d, hd, hlog⟩ := sha1_log_spec msg
  have htl := tailBytes_length msg
  have hdrop : ∀ (pre : List Nat), pre.length = 56 →
      ((pre ++ beBytes 8 (8 * msg.length % 2 ^ 64)).map some).drop 56
        = (beBytes 8 (8 * msg.length % 2 ^ 64)).map some := by
    intro pre hpre
    rw [List.map_append, ← hpre, ← List.length_map pre some, List.drop_left]
  have hlt : msg.length < 2 ^ 61 → 8 * msg.length % 2 ^ 64 = 8 * msg.length := by
    intro h; omega
  by_cases h56 : msg.length % 64 < 56
  · have hp : padZeros msg.length = 55 - (tailBytes msg).length := by
      rw [htl, padZeros, if_pos h56]
    rw [hp, blocksLog_final_one _ _ (by omega)] at hlog
    refine ⟨d, _, (tailBytes msg ++ [0x80] ++ List.replicate (55 - (tailBytes msg).length) 0 ++
      beBytes 8 (8 * msg.length % 2 ^ 64)).map some, hlog, by simp, ?_, ?_, ?_, hlt⟩
    · simp [beBytes_length]; omega
    · exact hdrop _ (by simp; omega)
    · rw [hdrop _ (by simp; omega), beBytes_8]; rfl
  · have hp : padZeros msg.length = 119 - (tailBytes msg).length := by
      rw [htl, padZeros, if_neg h56]
    rw [hp, blocksLog_final_two _ _ (by omega) (by omega)] at hlog
    refine ⟨d, _, (List.replicate 56 0 ++ beBytes 8 (8 * msg.length % 2 ^ 64)).map some, hlog,
      by simp, ?_, ?_, ?_, hlt⟩
    · simp [beBytes_length]
    · exact hdrop _ (by simp)
    · rw [hdrop _ (by simp), beBytes_8]; rfl

/-- C14. Whenever `sha1_update` returns from a context with `datalen ≤ 63`, the result
has `datalen ≤ 63`; it does return, with `datalen` advanced modulo 64, from every context
with a 64-cell buffer whose first `datalen ≤ 63` cells are written; and starting from
`sha1_init`, after absorbing `n` bytes `datalen` is `n mod 64` and the first `datalen`
cells of the buffer hold the last `n mod 64` bytes of the input. -/
theorem sha1_update_datalen_invariant :
    (∀ (ctx ctx' : SHA1_CTX) (xs : List Nat), ctx.datalen ≤ 63 →
      sha1_update ctx xs = some ctx' → ctx'.datalen ≤ 63) ∧
    (∀ (ctx : SHA1_CTX) (xs : List Nat), ctx.datalen ≤ 63 → ctx.data.length = 64 →
      (∀ i, i < ctx.datalen → (ctx.data.load i).isSome = true) →
      ∃ ctx', sha1_update ctx xs = some ctx' ∧ ctx'.datalen ≤ 63 ∧
        ctx'.datalen = (ctx.datalen + xs.length) % 64) ∧
    (∀ msg : List Nat, ∃ ctx, sha1_update (sha1_init SHA1_CTX.uninit) msg = some ctx ∧
      ctx.datalen = msg.length % 64 ∧
      ctx.data.take ctx.datalen = (msg.drop (msg.length - msg.length % 64)).map some) := by
  refine ⟨fun ctx ctx' xs h hs => sha1_update_datalen xs ctx ctx' h hs, ?_, ?_⟩
  · intro ctx xs hdl h64 hinit
    have hB := buffered_of_written ctx hdl h64 hinit
    obtain ⟨ctx', hctx', hB'⟩ := sha1_update_buffered ctx _ xs hB
    have hlen : ((ctx.data.take ctx.datalen).map (fun c => c.getD 0)).length = ctx.datalen :=
      hB.2.1.symm
    have hdl' := hB'.2.1
    rw [tailBytes_length, List.length_append, hlen] at hdl'
    exact ⟨ctx', hctx', by omega, hdl'⟩
  · intro msg
    obtain ⟨ctx, hctx, hB, _⟩ := sha1_update_init msg
    obtain ⟨_, hdl, _, htake⟩ := hB
    rw [tailBytes_length] at hdl
    refine ⟨ctx, hctx, hdl, ?_⟩
    rw [hdl, ← tailBytes_eq_drop, ← htake, tailBytes_length]

/-- C15, as stated, fails: after absorbing the single byte `0x61` into a fresh digest
state `bitlen` is 0, not 8. -/
theorem bitlen_after_one_byte :
    (sha1_update (sha1_init SHA1_CTX.uninit) [0x61]).map (fun ctx => ctx.bitlen) = some 0 ∧
    (0 : Nat) ≠ 8 * [0x61].length := by
  constructor
  · rfl
  · decide

/-- C15, amended. After absorbing any `n` message bytes into a fresh digest state,
`bitlen` is `512 * (n / 64)` modulo `2^64`, the bits of the blocks compressed so far,
`datalen` is `n mod 64`, and `bitlen + 8 * datalen` is `8 * n` modulo `2^64`; `bitlen`
is `8 * n` itself when `n` is a multiple of 64 below `2^61`. -/
theorem bitlen_after_update (msg : List Nat) :
    ∃ ctx, sha1_update (sha1_init SHA1_CTX.uninit) msg = some ctx ∧
      ctx.bitlen = (512 * (msg.length / 64)) % 2 ^ 64 ∧
      ctx.datalen = msg.length % 64 ∧
      (ctx.bitlen + 8 * ctx.datalen) % 2 ^ 64 = (8 * msg.length) % 2 ^ 64 ∧
      (msg.length % 64 = 0 → msg.length < 2 ^ 61 → ctx.bitlen = 8 * msg.length) := by
  obtain ⟨ctx, hctx, hB, hbit⟩ := sha1_update_init msg
  have hdl := hB.2.1
  rw [tailBytes_length] at hdl
  refine ⟨ctx, hctx, hbit, hdl, ?_, ?_⟩
  · rw [hbit, hdl]; omega
  · intro h0 hlt; rw [hbit]; omega

/-- C16. For all words `b`, `c`, `d` with `b` a 32-bit word, the mixing value of rounds
0..19, `(b AND c) XOR (NOT b AND d)`, equals the specified `(b AND c) OR (NOT b AND d)`. -/
theorem mix0_eq_specMix0 (b c d : Nat) (hb : b < 2 ^ 32) : mix0 b c d = specMix0 b c d := by
  apply Nat.eq_of_testBit_eq
  intro i
  simp only [mix0, specMix0, Nat.testBit_xor, Nat.testBit_or, Nat.testBit_and, testBit_not32 b i hb]
  cases b.testBit i <;> cases c.testBit i <;> cases d.testBit i <;> cases decide (i < 32) <;> rfl

/-- C16 at three 32-bit words. -/
theorem mix0_eq_specMix0_witness :
    0xFFFF0000 < 2 ^ 32 ∧
    mix0 0xFFFF0000 0x12345678 0x9ABCDEF0 = specMix0 0xFFFF0000 0x12345678 0x9ABCDEF0 :=
  ⟨by decide, mix0_eq_specMix0 0xFFFF0000 0x12345678 0x9ABCDEF0 (by decide)⟩

/-- C17. For all words `b`, `c`, `d`, the mixing value of rounds 40..59,
`(b AND c) XOR (b AND d) XOR (c AND d)`, equals the specified
`(b AND c) OR (b AND d) OR (c AND d)`. -/
theorem mix2_eq_specMix2 (b c d : Nat) : mix2 b c d = specMix2 b c d := by
  apply Nat.eq_of_testBit_eq
  intro i
  simp only [mix2, specMix2, Nat.testBit_xor, Nat.testBit_or, Nat.testBit_and]
  cases b.testBit i <;> cases c.testBit i <;> cases d.testBit i <;> rfl

/-- C18. For every 64-byte block the schedule loops of `sha1_transform` succeed and the
rounds run on the schedule `m` they build, where: for `i < 16`, `m[i]` is the big-endian
word of the bytes `4i .. 4i+3`, the sum of the shifted bytes needs no reduction modulo
`2^32` and equals their bitwise OR; for `16 ≤ i < 80`, `m[i]` is the left rotation by one
bit of `m[i-3] XOR m[i-8] XOR m[i-14] XOR m[i-16]`. -/
theorem sha1_schedule_spec (blk : List Nat) (hb : blk.length = 64)
    (hbytes : ∀ b ∈ blk, b < 256) :
    ∃ m, sha1_schedule (blk.map some) = some m ∧ m.length = 80 ∧
      (∀ ctx, sha1_transform ctx (blk.map some) = sha1_rounds ctx m) ∧
      (∀ i, i < 16 →
        m.load i = some (specWord blk i) ∧ specWord blk i < 2 ^ 32 ∧
        ((blk.getD (4 * i) 0 <<< 24) + (blk.getD (4 * i + 1) 0 <<< 16) +
          (blk.getD (4 * i + 2) 0 <<< 8) + blk.getD (4 * i + 3) 0) % 2 ^ 32 = specWord blk i ∧
        (blk.getD (4 * i) 0 <<< 24) + (blk.getD (4 * i + 1) 0 <<< 16) +
          (blk.getD (4 * i + 2) 0 <<< 8) + blk.getD (4 * i + 3) 0
          = (blk.getD (4 * i) 0 <<< 24) ||| (blk.getD (4 * i + 1) 0 <<< 16) |||
            (blk.getD (4 * i + 2) 0 <<< 8) ||| blk.getD (4 * i + 3) 0) ∧
      (∀ i, 16 ≤ i → i < 80 → ∃ x3 x8 x14 x16,
        m.load (i - 3) = some x3 ∧ m.load (i - 8) = some x8 ∧
        m.load (i - 14) = some x14 ∧ m.load (i - 16) = some x16 ∧
        m.load i = some (ROTLEFT (x3 ^^^ x8 ^^^ x14 ^^^ x16) 1) ∧
        m.load i = some (specRotl1 (x3 ^^^ x8 ^^^ x14 ^^^ x16))) := by
  obtain ⟨m, hm, hlen, hbnd, hw, hr⟩ := sha1_schedule_ok blk hb
  refine ⟨m, hm, hlen, ?_, ?_, ?_⟩
  · intro ctx
    rw [sha1_transform_eq_schedule_rounds, hm, Option.some_bind]
  · intro i hi
    obtain ⟨hcw, hlt, hget⟩ := codeWord_eq_specWord blk i hbytes
    refine ⟨by rw [hw i (by omega) hi, hcw], hlt, hcw, ?_⟩
    exact word_sum_eq_or _ _ _ _ (hget _) (hget _) (hget _)
  · intro i h16 hi
    obtain ⟨x3, x8, x14, x16, h3, h8, h14, hx16, hv⟩ := hr i h16 hi
    obtain ⟨y3, h3', b3⟩ := hbnd (i - 3) (by omega)
    obtain ⟨y8, h8', b8⟩ := hbnd (i - 8) (by omega)
    obtain ⟨y14, h14', b14⟩ := hbnd (i - 14) (by omega)
    obtain ⟨y16, h16', b16⟩ := hbnd (i - 16) (by omega)
    rw [h3] at h3'; rw [h8] at h8'; rw [h14] at h14'; rw [hx16] at h16'
    cases h3'; cases h8'; cases h14'; cases h16'
    refine ⟨x3, x8, x14, x16, h3, h8, h14, hx16, hv, ?_⟩
    rw [hv, ROTLEFT_one_eq_specRotl1 _
      (Nat.xor_lt_two_pow (Nat.xor_lt_two_pow (Nat.xor_lt_two_pow b3 b8) b14) b16)]

/-- C18 at the block of 64 bytes `0xFF` (top byte of every word at least `0x80`). -/
theorem sha1_schedule_spec_witness :
    (List.replicate 64 0xFF).length = 64 ∧ (∀ b ∈ List.replicate 64 0xFF, b < 256) ∧
    ∃ m, sha1_schedule ((List.replicate 64 0xFF).map some) = some m ∧ m.length = 80 ∧
      m.load 0 = some (specWord (List.replicate 64 0xFF) 0) ∧
      specWord (List.replicate 64 0xFF) 0 = 0xFFFFFFFF :=
  ⟨by decide, by decide,
    (sha1_schedule_spec (List.replicate 64 0xFF) (by decide) (by decide)).imp
      (fun _ h => ⟨h.1, h.2.1, (h.2.2.2.1 0 (by decide)).1, by decide⟩)⟩

/-- C19. Absorbing `a ++ b` is absorbing `a` and then `b`, from every context; and from
every context with a 64-cell buffer whose first `datalen ≤ 63` cells are written all
three calls return, `a ++ b` giving the very context that `a` followed by `b` gives. -/
theorem sha1_update_split :
    (∀ (ctx : SHA1_CTX) (a b : List Nat),
      sha1_update ctx (a ++ b) = (sha1_update ctx a).bind (fun c => sha1_update c b)) ∧
    (∀ (ctx : SHA1_CTX) (a b : List Nat), ctx.datalen ≤ 63 → ctx.data.length = 64 →
      (∀ i, i < ctx.datalen → (ctx.data.load i).isSome = true) →
      ∃ c1 c2, sha1_update ctx a = some c1 ∧ sha1_update c1 b = some c2 ∧
        sha1_update ctx (a ++ b) = some c2) := by
  have happ : ∀ (ctx : SHA1_CTX) (a b : List Nat),
      sha1_update ctx (a ++ b) = (sha1_update ctx a).bind (fun c => sha1_update c b) := by
    intro ctx a b
    simp [sha1_update, List.foldlM_append]
  refine ⟨happ, ?_⟩
  intro ctx a b hdl h64 hinit
  have hB := buffered_of_written ctx hdl h64 hinit
  obtain ⟨c1, hc1, hB1⟩ := sha1_update_buffered ctx _ a hB
  obtain ⟨c2, hc2, _⟩ := sha1_update_buffered c1 _ b hB1
  exact ⟨c1, c2, hc1, hc2, by rw [happ, hc1, Option.some_bind, hc2]⟩

/-- C20. For every key of length `L < 64`, every `j` with `L + j ≤ 64` and every message,
`hmacSha1` returns the same tag for the key and for the key followed by `j` zero bytes. -/
theorem hmacSha1_trailing_zeros (key m : List Nat) (j : Nat) (_hL : key.length < 64)
    (hj : key.length + j ≤ 64) :
    ∃ tag, hmacSha1 key m = some tag ∧ hmacSha1 (key ++ List.replicate j 0) m = some tag := by
  obtain ⟨tag, htag, _⟩ := hmacSha1_some key m
  exact ⟨tag, htag, by rw [hmacSha1_congr_key _ key m (hmacSha1_key_zero_ext key j hj), htag]⟩

/-- C20 at the keys "k" and "k" followed by one zero byte: two distinct keys with the
same tag. -/
theorem hmacSha1_trailing_zeros_witness :
    [0x6b].length < 64 ∧ [0x6b].length + 1 ≤ 64 ∧ [0x6b] ≠ [0x6b] ++ List.replicate 1 0 ∧
    ∃ tag, hmacSha1 [0x6b] [0x6d] = some tag ∧
      hmacSha1 ([0x6b] ++ List.replicate 1 0) [0x6d] = some tag :=
  ⟨by decide, by decide, by decide, hmacSha1_trailing_zeros [0x6b] [0x6d] 1 (by decide) (by decide)⟩

end crypto
end arbiter
